import Mathlib

/-!
A shallow embedding of the similarity-clustering core of the `samepic`
repository (src/src/image.rs, src/src/pile.rs, src/src/repository.rs,
src/src/lru.rs), together with theorems settling the frozen claims about it.

Modelling conventions:
* `Utf8PathBuf` is modelled as an opaque `Nat` identifier; the Rust `Image`
  implements `PartialEq`/`Hash` by comparing only `path`, so all set
  membership below is by path.
* `chrono::NaiveDateTime` is modelled as an `Int` counting seconds; the
  `.date()` projection becomes Euclidean division by 86400 (seconds per day),
  which is the floor-like day number and is monotone, matching calendar dates.
  `chrono::Duration::minutes 30` is the integer 1800.
* `ImageHash` ([u8; 16], a fixed-width bit fingerprint) is modelled as
  `List Bool`; `dist` is the Hamming distance of the common prefix (all
  hashes of one run have equal length, 128 bits).
* `HashSet<Image>` is modelled as a `List Image` whose insertion
  (`HashSet::insert`) is a no-op when an element with the same path is
  already present, exactly as in Rust.
* Rust panics are modelled by `Option`/default values at the places noted.
-/

namespace Samepic

/-- The Image record of src/src/image.rs: path identity, capture timestamp,
perceptual hash. Equality of the Rust type is path equality; the structural
equality here is finer, so every operation below compares paths explicitly. -/
structure Image where
  path : Nat
  timestamp : Int
  hash : List Bool
deriving DecidableEq, Repr

instance : Inhabited Image := ⟨⟨0, 0, []⟩⟩

/-- NaiveDateTime::date(): the calendar day of a timestamp, as a day number
(Euclidean division of seconds by 86400, i.e. floor). -/
def Image.date (i : Image) : Int := i.timestamp / 86400

/-- image_hasher ImageHash::dist: Hamming distance between two fixed-width
hashes (bit count of the xor); hashes of one run have equal bit length. -/
def dist (a b : List Bool) : Nat :=
  ((a.zip b).filter fun p => p.1 != p.2).length

/-- The helper fn abs of src/src/repository.rs (chrono::Duration has no abs). -/
def abs (d : Int) : Int := if d < 0 then -d else d

/-- The match predicate of Repository::new (src/src/repository.rs, the filter
over tuple_combinations): time delta strictly below 30 minutes AND hash
distance strictly below 10. -/
def isMatch (l r : Image) : Bool :=
  decide (abs (l.timestamp - r.timestamp) < 30 * 60) && decide (dist l.hash r.hash < 10)

/-- itertools tuple_combinations::<(_, _)>: all ordered pairs (l[i], l[j])
with i < j, in lexicographic position order. -/
def tupleCombinations : List α → List (α × α)
  | [] => []
  | x :: xs => (xs.map fun y => (x, y)) ++ tupleCombinations xs

/-- The pair list fed to the fold in Repository::new: the matched
tuple_combinations chained with one self-pair (i, i) per image. -/
def enginePairs (images : List Image) : List (Image × Image) :=
  ((tupleCombinations images).filter fun p => isMatch p.1 p.2)
    ++ images.map fun i => (i, i)

/-- The Pile of src/src/pile.rs: a set of images (HashSet modelled as a list
with path-based membership) plus the derived date. -/
structure Pile where
  pictures : List Image
  date : Int
deriving DecidableEq, Repr

instance : Inhabited Pile := ⟨⟨[], 0⟩⟩

/-- HashSet::contains for HashSet<Image>: membership by path equality. -/
def containsImg (s : List Image) (x : Image) : Bool :=
  s.any fun y => y.path == x.path

/-- HashSet::insert for HashSet<Image>: inserting an element whose path is
already present leaves the set unchanged. -/
def insertImg (s : List Image) (x : Image) : List Image :=
  if containsImg s x then s else x :: s

/-- Extend (HashSet::extend): insert every element of t into s. -/
def extendImgs (s t : List Image) : List Image :=
  t.foldl insertImg s

/-- Pile::update_date: minimum of the member timestamp dates. The Rust code
calls .min().expect("computing pile date"): on an empty set it panics; the 0
returned here is never reached because every pile holds at least one image. -/
def updateDate (pics : List Image) : Int :=
  match pics with
  | [] => 0
  | p :: rest => rest.foldl (fun acc q => min acc q.date) p.date

/-- Pile::new: a singleton pile whose date is the date of its image. -/
def Pile.new (image : Image) : Pile :=
  { date := image.date, pictures := [image] }

/-- Pile::push: insert the image, then recompute the date. -/
def Pile.push (p : Pile) (image : Image) : Pile :=
  let pics := insertImg p.pictures image
  { pictures := pics, date := updateDate pics }

/-- Pile::merge: absorb all pictures of the other pile, then recompute. -/
def Pile.merge (p : Pile) (other : Pile) : Pile :=
  let pics := extendImgs p.pictures other.pictures
  { pictures := pics, date := updateDate pics }

/-- Iterator::position: index of the first element satisfying p. -/
def position (p : Pile → Bool) : List Pile → Option Nat
  | [] => none
  | x :: xs => if p x then some 0 else (position p xs).map (· + 1)

/-- One iteration of the fold in Repository::new (the incremental union
step). Vec::swap_remove j is modelled as: overwrite slot j with the last
element, then drop the last slot. -/
def unionStep (piles : List Pile) (pr : Image × Image) : List Pile :=
  let l := pr.1
  let r := pr.2
  let left_pile := position (fun pile => containsImg pile.pictures l) piles
  let right_pile := position (fun pile => containsImg pile.pictures r) piles
  match left_pile, right_pile with
  | none, none => piles ++ [(Pile.new r).push l]
  | some idx, none => piles.set idx ((piles.getD idx default).push r)
  | none, some idx => piles.set idx ((piles.getD idx default).push l)
  | some i, some j =>
    if i ≠ j then
      let disbanding_pile := piles.getD j default
      let piles1 := (piles.set j (piles.getD (piles.length - 1) default)).dropLast
      let pile_index := if i = piles1.length then j else i
      piles1.set pile_index ((piles1.getD pile_index default).merge disbanding_pile)
    else piles

/-- The fold of Repository::new over the matched pair list, starting from an
empty pile vector. -/
def formPiles (pairs : List (Image × Image)) : List Pile :=
  pairs.foldl unionStep []

/-! Relational vocabulary: membership is always by path, mirroring the
PartialEq/Hash implementation of Image. -/

/-- The set of images with path a contains a member of s. -/
def hasPath (s : List Image) (a : Nat) : Prop := ∃ i ∈ s, i.path = a

/-- Pile membership by path. -/
def pHas (p : Pile) (a : Nat) : Prop := hasPath p.pictures a

/-- Two piles share no path. -/
def Disj (p q : Pile) : Prop := ∀ a, pHas p a → ¬ pHas q a

/-- Some pile of the list holds path a. -/
def covered (piles : List Pile) (a : Nat) : Prop := ∃ p ∈ piles, pHas p a

/-- Path a occurs in some pair of the list. -/
def endpointOf (pairs : List (Image × Image)) (a : Nat) : Prop :=
  ∃ pr ∈ pairs, pr.1.path = a ∨ pr.2.path = a

/-- The symmetrised relation generated by a pair list on paths. -/
def prel (pairs : List (Image × Image)) (a b : Nat) : Prop :=
  ∃ pr ∈ pairs, (pr.1.path = a ∧ pr.2.path = b) ∨ (pr.1.path = b ∧ pr.2.path = a)

/-- Paths a and b live in one common pile of the list. -/
def samePile (piles : List Pile) (a b : Nat) : Prop :=
  ∃ p ∈ piles, pHas p a ∧ pHas p b

/-! The loop invariant of the fold in Repository::new. -/

/-- Invariant relating the processed prefix of the pair list to the current
pile vector: piles are non-empty, pairwise path-disjoint, cover exactly the
paths seen so far, each pile is contained in one equivalence class of the
processed relation, and both ends of every processed pair share a pile. -/
structure Inv (pairs : List (Image × Image)) (piles : List Pile) : Prop where
  nonempty : ∀ p ∈ piles, p.pictures ≠ []
  disj : piles.Pairwise Disj
  cover : ∀ a, covered piles a ↔ endpointOf pairs a
  conn : ∀ p ∈ piles, ∀ a b, pHas p a → pHas p b → Relation.EqvGen (prel pairs) a b
  joined : ∀ pr ∈ pairs, samePile piles pr.1.path pr.2.path

/-- The member paths of one pile, as a set. -/
def pileSet (p : Pile) : Set Nat := {a | pHas p a}

/-- The partition produced by a pile list, as a set of path sets. -/
def pileSets (piles : List Pile) : Set (Set Nat) :=
  {S | ∃ p ∈ piles, S = pileSet p}

/-- The equivalence class of a path under the closure of the pair relation,
restricted to pair endpoints. -/
def classSet (pairs : List (Image × Image)) (a : Nat) : Set Nat :=
  {b | Relation.EqvGen (prel pairs) a b ∧ endpointOf pairs b}

/-- The symmetric match relation on paths induced by an image list: two paths
are related when images of the list carrying them satisfy the match
predicate. Every path of the list is related to itself because the predicate
holds trivially on a self-pair. -/
def matchRel (images : List Image) (a b : Nat) : Prop :=
  ∃ l ∈ images, ∃ r ∈ images, l.path = a ∧ r.path = b ∧ isMatch l r = true

/-- Witness inputs: two images matching each other (distance 1, 60 seconds
apart) and one image far away in hash and in time. -/
def imgW1 : Image := ⟨1, 0, [false, false, false, false]⟩

def imgW2 : Image := ⟨2, 60, [true, false, false, false]⟩

def imgW3 : Image := ⟨3, 2 * 86400, [true, true, true, true]⟩

def imagesW : List Image := [imgW1, imgW2, imgW3]

/-- The observable date invariant: the date is a lower bound of the member
dates, it is attained, and it equals the date of any member of minimal
timestamp (so it is the minimum over the member timestamps). -/
def DateInv (p : Pile) : Prop :=
  (∀ x ∈ p.pictures, p.date ≤ x.date) ∧
  (∃ x ∈ p.pictures, p.date = x.date) ∧
  (∀ m ∈ p.pictures, (∀ x ∈ p.pictures, m.timestamp ≤ x.timestamp) → p.date = m.date)

/-- Witness piles for C5: two singleton piles that merge. -/
def pilesW : List Pile := [Pile.new imgW1, Pile.new imgW3]

/-! Directory naming of Repository::create_piles: the name of a pile
directory is the Display of its date, an underscore (character 95), and the
sequence number zero-padded to width four (the Rust format string
"\x7b\x7d_\x7bn:04\x7d"). -/

/-- Decimal digits of a natural number, most significant first. -/
def natRepr (n : Nat) : List Char :=
  if h : n < 10 then [Char.ofNat (48 + n)]
  else natRepr (n / 10) ++ [Char.ofNat (48 + n % 10)]
termination_by n
decreasing_by
  exact Nat.div_lt_self (by omega) (by omega)

/-- Numeric value of a digit character. -/
def charVal (c : Char) : Nat := c.toNat - 48

/-- Value of a digit string, most significant first. -/
def strVal (s : List Char) : Nat := s.foldl (fun acc c => 10 * acc + charVal c) 0

/-- Zero-padding to width four, the \x7bn:04\x7d format specifier. -/
def pad4 (n : Nat) : List Char :=
  List.replicate (4 - (natRepr n).length) (Char.ofNat 48) ++ natRepr n

/-- Display of a NaiveDate, modelled on its day number; a negative day
number is rendered with a leading minus (character 45). -/
def intRepr (d : Int) : List Char :=
  if d < 0 then Char.ofNat 45 :: natRepr (-d).toNat else natRepr d.toNat

/-- The directory name of create_piles for a pile of the given date and
sequence number: date Display, underscore, zero-padded counter. -/
def dirName (d : Int) (n : Nat) : List Char :=
  intRepr d ++ Char.ofNat 95 :: pad4 n

/-! The per-date sequence counter of create_piles, a
HashMap<NaiveDate, usize> driven through entry().and_modify(+1).or_default():
first occurrence of a date yields 0 and stores 0; each later occurrence
increments the stored value and yields it. -/

/-- HashMap lookup, modelled on an association list. -/
def assocGet : List (Int × Nat) → Int → Option Nat
  | [], _ => none
  | (k, v) :: t, d => if k = d then some v else assocGet t d

/-- HashMap insert-or-update. -/
def assocSet : List (Int × Nat) → Int → Nat → List (Int × Nat)
  | [], d, v => [(d, v)]
  | (k, w) :: t, d, v => if k = d then (d, v) :: t else (k, w) :: assocSet t d v

/-- dates_counts.entry(date).and_modify(increment).or_default() of
create_piles: returns the sequence number for this pile and the updated
map. -/
def bumpEntry (m : List (Int × Nat)) (d : Int) : Nat × List (Int × Nat) :=
  match assocGet m d with
  | none => (0, assocSet m d 0)
  | some v => (v + 1, assocSet m d (v + 1))

/-- The naming pass of create_piles over the pile list, in order. -/
def pileNames (piles : List Pile) : List (List Char) :=
  (piles.foldl
    (fun st pile =>
      let nm := bumpEntry st.1 pile.date
      (nm.2, st.2 ++ [dirName pile.date nm.1]))
    (([] : List (Int × Nat)), ([] : List (List Char)))).2

/-- Count of piles of a given date. -/
def dateCount (processed : List Pile) (d : Int) : Nat :=
  processed.countP fun q => decide (q.date = d)

/-- The counter-map invariant: the stored value per date is one less than
the number of piles of that date already processed, absent dates have no
entry. -/
def CountInv (m : List (Int × Nat)) (processed : List Pile) : Prop :=
  ∀ e, assocGet m e =
    if 0 < dateCount processed e then some (dateCount processed e - 1) else none

/-- Specification of the produced names: the n-th pile gets the count of
earlier piles sharing its date. -/
def namesSpec (processed todo : List Pile) : List (List Char) :=
  match todo with
  | [] => []
  | p :: rest => dirName p.date (dateCount processed p.date)
      :: namesSpec (processed ++ [p]) rest

/-! The Stats of src/src/repository.rs. f32 is modelled by Rat: the division
total_pics / total_piles never panics in Rust (0.0/0.0 is NaN); here 0/0 is
the Rat junk value 0. Field names follow the Rust struct. -/

structure Stats where
  longest_time_delta : Int
  total_pics : Nat
  total_piles : Nat
  max_pile_size : Nat
  avg_pile_size : Rat
  median_pile_size : Nat
  run_time_ms : Nat
deriving DecidableEq, Repr

/-- Vec::sort_unstable on sizes, modelled as insertion sort (ascending, the
same sorted list). -/
def insertSorted (x : Nat) : List Nat → List Nat
  | [] => [x]
  | y :: t => if x ≤ y then x :: y :: t else y :: insertSorted x t

def sortNat : List Nat → List Nat
  | [] => []
  | x :: t => insertSorted x (sortNat t)

/-- Iterator::max().unwrap_or(zero) over the per-pile time spreads. -/
def iterMaxInt (l : List Int) : Int :=
  match l with
  | [] => 0
  | x :: t => t.foldl max x

/-- Iterator::max().unwrap_or_default() over pile sizes. -/
def iterMaxNat (l : List Nat) : Nat :=
  match l with
  | [] => 0
  | x :: t => t.foldl max x

/-- itertools minmax over the member timestamps of one pile: zero for no or
one element, max minus min otherwise. -/
def pileSpread (p : Pile) : Int :=
  match p.pictures with
  | [] => 0
  | [_] => 0
  | x :: rest =>
    rest.foldl (fun a q => max a q.timestamp) x.timestamp
      - rest.foldl (fun a q => min a q.timestamp) x.timestamp

/-- Stats::from_piles. The median is sorted_piles[sorted_piles.len() / 2] —
a plain index that panics (modelled none) when the pile list is empty, i.e.
when every input file failed to load. chrono num_minutes truncates toward
zero, Int.div. -/
def Stats.from_piles (piles : List Pile) (run_time_ms : Nat) : Option Stats :=
  let total_pics := (piles.map fun p => p.pictures.length).sum
  let total_piles := piles.length
  let sorted_piles := sortNat (piles.map fun p => p.pictures.length)
  match sorted_piles[sorted_piles.length / 2]? with
  | none => none
  | some median =>
    some {
      run_time_ms := run_time_ms
      total_pics := total_pics
      total_piles := total_piles
      avg_pile_size := (total_pics : Rat) / (total_piles : Rat)
      median_pile_size := median
      max_pile_size := iterMaxNat (piles.map fun p => p.pictures.length)
      longest_time_delta := Int.tdiv (iterMaxInt (piles.map pileSpread)) 60 }

/-! The LruCache wrapper of src/src/lru.rs. The external lru crate cache is
modelled as a capacity plus an entry list in most-recently-used-first order;
the crate version in use takes a plain usize capacity and its
get_or_insert returns an Option that is None exactly on a zero-capacity
miss — which the wrapper turns into .expect("zero sized cache"). Key<T> is
the u32 counter, modelled as Nat. -/

structure ExtLruCache (V : Type) where
  cap : Nat
  entries : List (Nat × V)

def extLookup {V : Type} : List (Nat × V) → Nat → Option V
  | [], _ => none
  | (k, v) :: t, key => if k = key then some v else extLookup t key

def extRemove {V : Type} (entries : List (Nat × V)) (key : Nat) : List (Nat × V) :=
  entries.filter fun e => decide (e.1 ≠ key)

/-- lru::LruCache::push: update-and-promote an existing key, otherwise
insert at the front, evicting the least recently used entry (the back) when
at capacity. -/
def ExtLruCache.push {V : Type} (c : ExtLruCache V) (k : Nat) (v : V) : ExtLruCache V :=
  match extLookup c.entries k with
  | some _ => { c with entries := (k, v) :: extRemove c.entries k }
  | none =>
    let kept := if c.entries.length = c.cap then c.entries.dropLast else c.entries
    { c with entries := (k, v) :: kept }

/-- lru::LruCache::get_or_insert: a hit promotes the entry and does not run
the factory; a miss runs it once and inserts, evicting if full; none exactly
on a zero-capacity miss. The Bool is a ghost flag recording whether the
factory was invoked. -/
def ExtLruCache.get_or_insert {V : Type} (c : ExtLruCache V) (k : Nat) (f : Unit → V) :
    Option (V × ExtLruCache V × Bool) :=
  match extLookup c.entries k with
  | some v => some (v, { c with entries := (k, v) :: extRemove c.entries k }, false)
  | none =>
    if c.cap = 0 then none
    else
      let kept := if c.entries.length = c.cap then c.entries.dropLast else c.entries
      some (f (), { c with entries := (k, f ()) :: kept }, true)

/-- The LruCache of src/src/lru.rs: the crate cache plus the monotone key
counter. -/
structure LruCache (V : Type) where
  cache : ExtLruCache V
  current_key : Nat

/-- LruCache::new. -/
def LruCache.new (V : Type) (capacity : Nat) : LruCache V :=
  ⟨⟨capacity, []⟩, 0⟩

/-- LruCache::push: store under the current key, advance the counter,
return the key. -/
def LruCache.push {V : Type} (c : LruCache V) (value : V) : Nat × LruCache V :=
  (c.current_key, ⟨c.cache.push c.current_key value, c.current_key + 1⟩)

/-- LruCache::get_or_insert: delegate, then .expect("zero sized cache") —
the none result models that panic. -/
def LruCache.get_or_insert {V : Type} (c : LruCache V) (k : Nat) (f : Unit → V) :
    Option (V × LruCache V × Bool) :=
  match c.cache.get_or_insert k f with
  | none => none
  | some (v, c2, used) => some (v, ⟨c2, c.current_key⟩, used)

/-- A concrete factory closure for the counterexample and witnesses. -/
def factW : Unit → Nat := fun _ => 7

/-- A capacity-one cache in which key 0 was pushed and then evicted by the
push of key 1. -/
def lruW : LruCache Nat := (((LruCache.new Nat 1).push 10).2.push 20).2

/-! The fallible on-disk pass of Repository::create_piles. Filesystem
behaviour is supplied as oracles: fileName models image.path().file_name()
(none = no valid base name), createDir models fs::create_dir (some e = io
failure e), hardLink models fs::hard_link(image.path(), link) (some e = io
failure e), saveStats models Stats::save_to_file. -/

inductive CreatePilesError where
  | createDirFailed (ioErr : Nat)
  | invalidFileName (srcPath : Nat)
  | linkFailed (ioErr : Nat)
  | statsSaveFailed (ioErr : Nat)
deriving DecidableEq, Repr

/-- The source image path the error message names. Only the invalid file
name branch wraps the error with the image path
(wrap_err_with "Invalid image file name for path ..."); create_dir and
hard_link failures are propagated with the question-mark operator as bare
io::Error values, whose Display carries no path, and the stats failure
names the destination directory, not a source image. -/
def CreatePilesError.namedSourcePath : CreatePilesError → Option Nat
  | .invalidFileName p => some p
  | _ => none

/-- The inner loop of create_piles over the pictures of one pile: look up
the base name, then hard-link; the first failure aborts. -/
def linkImages (fileName : Nat → Option Nat) (hardLink : Nat → List Char → Option Nat)
    (dir : List Char) : List Image → Except CreatePilesError Unit
  | [] => Except.ok ()
  | img :: rest =>
    match fileName img.path with
    | none => Except.error (CreatePilesError.invalidFileName img.path)
    | some _ =>
      match hardLink img.path dir with
      | some e => Except.error (CreatePilesError.linkFailed e)
      | none => linkImages fileName hardLink dir rest

/-- The outer loop of create_piles: per pile, compute the directory name
through the per-date counter, create the directory, link all pictures; at
the end save the stats file. -/
def createPilesGo (fileName : Nat → Option Nat) (createDir : List Char → Option Nat)
    (hardLink : Nat → List Char → Option Nat) (saveStats : Option Nat)
    (counts : List (Int × Nat)) : List Pile → Except CreatePilesError Unit
  | [] =>
    match saveStats with
    | some e => Except.error (CreatePilesError.statsSaveFailed e)
    | none => Except.ok ()
  | pile :: rest =>
    let nm := bumpEntry counts pile.date
    match createDir (dirName pile.date nm.1) with
    | some e => Except.error (CreatePilesError.createDirFailed e)
    | none =>
      match linkImages fileName hardLink (dirName pile.date nm.1) pile.pictures with
      | Except.error err => Except.error err
      | Except.ok _ => createPilesGo fileName createDir hardLink saveStats nm.2 rest

/-- Repository::create_piles. -/
def create_piles (fileName : Nat → Option Nat) (createDir : List Char → Option Nat)
    (hardLink : Nat → List Char → Option Nat) (saveStats : Option Nat)
    (piles : List Pile) : Except CreatePilesError Unit :=
  createPilesGo fileName createDir hardLink saveStats [] piles

/-- Concrete oracles for the C9 counterexample and witness: every path has a
valid file name, directory creation succeeds, every hard link fails with io
error 13 (permission denied). -/
def fnW : Nat → Option Nat := fun p => some p

def cdW : List Char → Option Nat := fun _ => none

def hlFailW : Nat → List Char → Option Nat := fun _ _ => some 13

theorem containsImg_iff {s : List Image} {x : Image} :
    containsImg s x = true ↔ hasPath s x.path := by
  simp [containsImg, hasPath, List.any_eq_true]

theorem containsImg_iff_false {s : List Image} {x : Image} :
    containsImg s x = false ↔ ¬ hasPath s x.path := by
  rw [← containsImg_iff]
  cases h : containsImg s x <;> simp

theorem hasPath_insertImg {s : List Image} {x : Image} {a : Nat} :
    hasPath (insertImg s x) a ↔ hasPath s a ∨ a = x.path := by
  unfold insertImg
  by_cases h : containsImg s x = true
  · rw [if_pos h]
    constructor
    · exact fun hp => Or.inl hp
    · rintro (hp | rfl)
      · exact hp
      · exact containsImg_iff.mp h
  · rw [if_neg h]
    constructor
    · rintro ⟨i, hi, hpath⟩
      rcases List.mem_cons.mp hi with rfl | hi
      · exact Or.inr hpath.symm
      · exact Or.inl ⟨i, hi, hpath⟩
    · rintro (⟨i, hi, hpath⟩ | rfl)
      · exact ⟨i, List.mem_cons_of_mem _ hi, hpath⟩
      · exact ⟨x, List.mem_cons_self _ _, rfl⟩

theorem insertImg_ne_nil {s : List Image} {x : Image} : insertImg s x ≠ [] := by
  unfold insertImg
  by_cases h : containsImg s x = true
  · rw [if_pos h]
    rcases containsImg_iff.mp h with ⟨i, hi, _⟩
    exact List.ne_nil_of_mem hi
  · rw [if_neg h]
    exact List.cons_ne_nil _ _

theorem hasPath_extendImgs {s t : List Image} {a : Nat} :
    hasPath (extendImgs s t) a ↔ hasPath s a ∨ hasPath t a := by
  induction t generalizing s with
  | nil => simp [extendImgs, hasPath]
  | cons y t ih =>
    show hasPath (extendImgs (insertImg s y) t) a ↔ _
    rw [ih, hasPath_insertImg]
    constructor
    · rintro ((hs | rfl) | ht)
      · exact Or.inl hs
      · exact Or.inr ⟨y, List.mem_cons_self _ _, rfl⟩
      · rcases ht with ⟨i, hi, hpath⟩
        exact Or.inr ⟨i, List.mem_cons_of_mem _ hi, hpath⟩
    · rintro (hs | ⟨i, hi, hpath⟩)
      · exact Or.inl (Or.inl hs)
      · rcases List.mem_cons.mp hi with rfl | hi
        · exact Or.inl (Or.inr hpath.symm)
        · exact Or.inr ⟨i, hi, hpath⟩

theorem extendImgs_ne_nil {s t : List Image} (hs : s ≠ []) : extendImgs s t ≠ [] := by
  induction t generalizing s with
  | nil => exact hs
  | cons y t ih => exact ih insertImg_ne_nil

theorem pHas_push {p : Pile} {x : Image} {a : Nat} :
    pHas (p.push x) a ↔ pHas p a ∨ a = x.path := by
  simp only [pHas, Pile.push]
  exact hasPath_insertImg

theorem push_pictures_ne_nil {p : Pile} {x : Image} : (p.push x).pictures ≠ [] :=
  insertImg_ne_nil

theorem pHas_merge {p q : Pile} {a : Nat} :
    pHas (p.merge q) a ↔ pHas p a ∨ pHas q a := by
  simp only [pHas, Pile.merge]
  exact hasPath_extendImgs

theorem merge_pictures_ne_nil {p q : Pile} (hp : p.pictures ≠ []) :
    (p.merge q).pictures ≠ [] :=
  extendImgs_ne_nil hp

theorem pHas_new {x : Image} {a : Nat} : pHas (Pile.new x) a ↔ a = x.path := by
  simp only [pHas, Pile.new, hasPath, List.mem_singleton]
  constructor
  · rintro ⟨i, rfl, h⟩
    exact h.symm
  · rintro rfl
    exact ⟨x, rfl, rfl⟩

theorem pHas_new_push {l r : Image} {a : Nat} :
    pHas ((Pile.new r).push l) a ↔ a = l.path ∨ a = r.path := by
  rw [pHas_push, pHas_new, or_comm]

theorem position_none {p : Pile → Bool} {l : List Pile} (h : position p l = none) :
    ∀ x ∈ l, p x = false := by
  induction l with
  | nil => intro x hx; cases hx
  | cons y l ih =>
    intro x hx
    unfold position at h
    by_cases hy : p y = true
    · rw [if_pos hy] at h; cases h
    · rw [if_neg hy] at h
      rcases List.mem_cons.mp hx with rfl | hx
      · cases hpy : p x
        · rfl
        · exact absurd hpy hy
      · rcases hrec : position p l with _ | i
        · exact ih hrec x hx
        · rw [hrec] at h; cases h

theorem position_some {p : Pile → Bool} {l : List Pile} {i : Nat} {d : Pile}
    (h : position p l = some i) : i < l.length ∧ p (l.getD i d) = true := by
  induction l generalizing i with
  | nil => cases h
  | cons y l ih =>
    unfold position at h
    by_cases hy : p y = true
    · rw [if_pos hy] at h
      cases h
      exact ⟨Nat.succ_pos _, hy⟩
    · rw [if_neg hy] at h
      rcases hrec : position p l with _ | k
      · rw [hrec] at h; cases h
      · rw [hrec] at h
        cases h
        rcases ih hrec with ⟨hk, hp⟩
        exact ⟨Nat.succ_lt_succ hk, hp⟩

/-! List toolkit: permutation bookkeeping for Vec::set and Vec::swap_remove. -/

theorem getD_eq_getElem {α : Type} {l : List α} {i : Nat} (h : i < l.length) (d : α) :
    l.getD i d = l[i] := by
  rw [List.getD_eq_getElem?_getD, List.getElem?_eq_getElem h]
  rfl

theorem list_eq_take_getD_drop {α : Type} {l : List α} {i : Nat} (h : i < l.length) (d : α) :
    l = l.take i ++ l.getD i d :: l.drop (i + 1) := by
  rw [getD_eq_getElem h d, ← List.drop_eq_getElem_cons h, List.take_append_drop]

theorem set_eq_take_cons_drop {α : Type} {l : List α} {i : Nat} (h : i < l.length) (x : α) :
    l.set i x = l.take i ++ x :: l.drop (i + 1) := by
  rw [List.set_eq_take_append_cons_drop, if_pos h]

theorem set_perm {α : Type} {l : List α} {i : Nat} (h : i < l.length) (x : α) :
    (l.set i x).Perm (x :: l.eraseIdx i) := by
  rw [set_eq_take_cons_drop h x, List.eraseIdx_eq_take_drop_succ]
  exact List.perm_middle

theorem perm_getD_cons_eraseIdx {α : Type} {l : List α} {i : Nat} (h : i < l.length) (d : α) :
    l.Perm (l.getD i d :: l.eraseIdx i) := by
  rw [List.eraseIdx_eq_take_drop_succ]
  conv_lhs => rw [list_eq_take_getD_drop h d]
  exact List.perm_middle

theorem getD_dropLast {α : Type} {l : List α} {i : Nat} (h : i < l.dropLast.length) (d : α) :
    l.dropLast.getD i d = l.getD i d := by
  have h2 : i < l.length := by
    rw [List.length_dropLast] at h
    omega
  rw [getD_eq_getElem h d, List.getElem_dropLast, getD_eq_getElem h2 d]

theorem getD_set_self {α : Type} {l : List α} {i : Nat} (h : i < l.length) (x d : α) :
    (l.set i x).getD i d = x := by
  have h2 : i < (l.set i x).length := by
    rw [List.length_set]
    exact h
  rw [getD_eq_getElem h2 d, List.getElem_set_self]

theorem getD_set_ne {α : Type} {l : List α} {i j : Nat} (hne : i ≠ j) (x d : α) :
    (l.set i x).getD j d = l.getD j d := by
  rw [List.getD_eq_getElem?_getD, List.getElem?_set_ne hne, ← List.getD_eq_getElem?_getD]

theorem dropLast_cons_ne {α : Type} {x : α} {t : List α} (h : t ≠ []) :
    (x :: t).dropLast = x :: t.dropLast := by
  cases t with
  | nil => exact absurd rfl h
  | cons y t => rfl

theorem dropLast_getD_concat {α : Type} {l : List α} (h : l ≠ []) (d : α) :
    l.dropLast ++ [l.getD (l.length - 1) d] = l := by
  induction l with
  | nil => exact absurd rfl h
  | cons x t ih =>
    cases t with
    | nil => rfl
    | cons y t =>
      have htne : (y :: t) ≠ [] := List.cons_ne_nil _ _
      have : (x :: y :: t).length - 1 = ((y :: t).length - 1) + 1 := by
        simp [List.length_cons]
      rw [dropLast_cons_ne htne, this, List.cons_append, List.getD_cons_succ, ih htne]

theorem swapRemove_cons_perm {α : Type} {l : List α} {j : Nat} (h : j < l.length) (d : α) :
    (l.getD j d :: (l.set j (l.getD (l.length - 1) d)).dropLast).Perm l := by
  have hne : l ≠ [] := by
    intro hl
    rw [hl] at h
    exact Nat.not_lt_zero _ h
  by_cases hj : j = l.length - 1
  · subst hj
    rw [set_eq_take_cons_drop h, List.drop_eq_nil_of_le (by omega), List.dropLast_concat]
    have heq : l.take (l.length - 1) ++ [l.getD (l.length - 1) d] = l := by
      rw [← List.dropLast_eq_take]
      exact dropLast_getD_concat hne d
    refine ((List.perm_append_singleton _ _).symm).trans ?_
    rw [heq]
  · have hjlt : j + 1 < l.length := by
      rcases Nat.lt_or_ge (j + 1) l.length with h1 | h1
      · exact h1
      · exact absurd (by omega : j = l.length - 1) hj
    have hD : l.drop (j + 1) ≠ [] := by
      intro hD
      have := List.length_drop (j + 1) l
      rw [hD] at this
      simp at this
      omega
    have hlast : (l.drop (j + 1)).getD ((l.drop (j + 1)).length - 1) d
        = l.getD (l.length - 1) d := by
      have hlen : (l.drop (j + 1)).length = l.length - (j + 1) := List.length_drop _ _
      have hsub : (l.drop (j + 1)).length - 1 < (l.drop (j + 1)).length := by
        rw [hlen]; omega
      rw [getD_eq_getElem hsub d, List.getElem_drop, getD_eq_getElem (by omega) d]
      congr 1
      rw [hlen]
      omega
    have hconcat : (l.drop (j + 1)).dropLast ++ [l.getD (l.length - 1) d] = l.drop (j + 1) := by
      rw [← hlast]
      exact dropLast_getD_concat hD d
    rw [set_eq_take_cons_drop h,
        List.dropLast_append_of_ne_nil _ (List.cons_ne_nil _ _),
        dropLast_cons_ne hD]
    refine List.Perm.trans
      (List.Perm.cons _ (List.Perm.append_left _ ((List.perm_append_singleton _ _).symm))) ?_
    rw [hconcat]
    refine List.perm_middle.symm.trans ?_
    conv_rhs => rw [list_eq_take_getD_drop h d]

theorem disj_symm {p q : Pile} (h : Disj p q) : Disj q p := by
  intro a ha hb
  exact h a hb ha

theorem Inv.perm {pairs : List (Image × Image)} {piles piles2 : List Pile}
    (h : Inv pairs piles) (hp : piles.Perm piles2) : Inv pairs piles2 := by
  refine ⟨?_, ?_, ?_, ?_, ?_⟩
  · intro p hmem
    exact h.nonempty p (hp.mem_iff.mpr hmem)
  · exact (hp.pairwise_iff fun hd => disj_symm hd).mp h.disj
  · intro a
    rw [← h.cover a]
    constructor
    · rintro ⟨p, hmem, hpa⟩
      exact ⟨p, hp.mem_iff.mpr hmem, hpa⟩
    · rintro ⟨p, hmem, hpa⟩
      exact ⟨p, hp.mem_iff.mp hmem, hpa⟩
  · intro p hmem a b ha hb
    exact h.conn p (hp.mem_iff.mpr hmem) a b ha hb
  · intro pr hpr
    rcases h.joined pr hpr with ⟨p, hmem, hpa⟩
    exact ⟨p, hp.mem_iff.mp hmem, hpa⟩

theorem endpointOf_append_single {pairs : List (Image × Image)} {pr : Image × Image} {a : Nat} :
    endpointOf (pairs ++ [pr]) a ↔ endpointOf pairs a ∨ pr.1.path = a ∨ pr.2.path = a := by
  unfold endpointOf
  constructor
  · rintro ⟨q, hq, hends⟩
    rcases List.mem_append.mp hq with hq | hq
    · exact Or.inl ⟨q, hq, hends⟩
    · rcases List.mem_singleton.mp hq with rfl
      exact Or.inr hends
  · rintro (⟨q, hq, hends⟩ | hends)
    · exact ⟨q, List.mem_append_left _ hq, hends⟩
    · exact ⟨pr, List.mem_append_right _ (List.mem_singleton.mpr rfl), hends⟩

theorem prel_append_single {pairs : List (Image × Image)} {pr : Image × Image} {a b : Nat} :
    prel (pairs ++ [pr]) a b ↔
      prel pairs a b ∨ (pr.1.path = a ∧ pr.2.path = b) ∨ (pr.1.path = b ∧ pr.2.path = a) := by
  unfold prel
  constructor
  · rintro ⟨q, hq, hrel⟩
    rcases List.mem_append.mp hq with hq | hq
    · exact Or.inl ⟨q, hq, hrel⟩
    · rcases List.mem_singleton.mp hq with rfl
      exact Or.inr hrel
  · rintro (⟨q, hq, hrel⟩ | hrel)
    · exact ⟨q, List.mem_append_left _ hq, hrel⟩
    · exact ⟨pr, List.mem_append_right _ (List.mem_singleton.mpr rfl), hrel⟩

theorem eqv_mono_append {pairs : List (Image × Image)} {pr : Image × Image} {a b : Nat}
    (h : Relation.EqvGen (prel pairs) a b) :
    Relation.EqvGen (prel (pairs ++ [pr])) a b :=
  Relation.EqvGen.mono (fun _ _ hxy => prel_append_single.mpr (Or.inl hxy)) h

theorem prel_new_pair {pairs : List (Image × Image)} {l r : Image} :
    prel (pairs ++ [(l, r)]) l.path r.path :=
  prel_append_single.mpr (Or.inr (Or.inl ⟨rfl, rfl⟩))

theorem pile_unique {piles : List Pile} (hd : piles.Pairwise Disj)
    {P Q : Pile} (hP : P ∈ piles) (hQ : Q ∈ piles) {a : Nat}
    (ha : pHas P a) (hb : pHas Q a) : P = Q := by
  by_cases hPQ : P = Q
  · exact hPQ
  · have hsym : Symmetric Disj := fun _ _ hxy => disj_symm hxy
    exact absurd hb (hd.forall hsym hP hQ hPQ a ha)

theorem covered_cons {P : Pile} {rest : List Pile} {a : Nat} :
    covered (P :: rest) a ↔ pHas P a ∨ covered rest a := by
  unfold covered
  constructor
  · rintro ⟨p, hp, hpa⟩
    rcases List.mem_cons.mp hp with rfl | hp
    · exact Or.inl hpa
    · exact Or.inr ⟨p, hp, hpa⟩
  · rintro (hpa | ⟨p, hp, hpa⟩)
    · exact ⟨P, List.mem_cons_self _ _, hpa⟩
    · exact ⟨p, List.mem_cons_of_mem _ hp, hpa⟩

theorem covered_perm {piles piles2 : List Pile} (hp : piles.Perm piles2) {a : Nat} :
    covered piles a ↔ covered piles2 a := by
  unfold covered
  constructor
  · rintro ⟨p, hmem, hpa⟩
    exact ⟨p, hp.mem_iff.mp hmem, hpa⟩
  · rintro ⟨p, hmem, hpa⟩
    exact ⟨p, hp.mem_iff.mpr hmem, hpa⟩

theorem position_none_not_covered {piles : List Pile} {x : Image}
    (h : position (fun pile => containsImg pile.pictures x) piles = none) :
    ¬ covered piles x.path := by
  rintro ⟨p, hmem, hpa⟩
  have := position_none h p hmem
  rw [containsImg_iff_false] at this
  exact this hpa

theorem getD_mem {α : Type} {l : List α} {i : Nat} (h : i < l.length) (d : α) :
    l.getD i d ∈ l := by
  rw [getD_eq_getElem h d]
  exact List.getElem_mem h

/-- Branch (None, None) of the union step: a fresh pile holding both images
is appended; here stated for the cons-permuted form. -/
theorem inv_step_new {pairs : List (Image × Image)} {piles : List Pile} {l r : Image}
    (h : Inv pairs piles)
    (hl : ¬ covered piles l.path) (hr : ¬ covered piles r.path) :
    Inv (pairs ++ [(l, r)]) (((Pile.new r).push l) :: piles) := by
  refine ⟨?_, ?_, ?_, ?_, ?_⟩
  · intro p hmem
    rcases List.mem_cons.mp hmem with rfl | hmem
    · exact push_pictures_ne_nil
    · exact h.nonempty p hmem
  · refine List.pairwise_cons.mpr ⟨?_, h.disj⟩
    intro q hq a ha hqa
    rcases pHas_new_push.mp ha with rfl | rfl
    · exact hl ⟨q, hq, hqa⟩
    · exact hr ⟨q, hq, hqa⟩
  · intro a
    rw [covered_cons, pHas_new_push, h.cover, endpointOf_append_single]
    constructor
    · rintro ((rfl | rfl) | he)
      · exact Or.inr (Or.inl rfl)
      · exact Or.inr (Or.inr rfl)
      · exact Or.inl he
    · rintro (he | rfl | rfl)
      · exact Or.inr he
      · exact Or.inl (Or.inl rfl)
      · exact Or.inl (Or.inr rfl)
  · intro p hmem a b ha hb
    rcases List.mem_cons.mp hmem with rfl | hmem
    · have base : Relation.EqvGen (prel (pairs ++ [(l, r)])) l.path r.path :=
        Relation.EqvGen.rel _ _ prel_new_pair
      rcases pHas_new_push.mp ha with rfl | rfl <;> rcases pHas_new_push.mp hb with rfl | rfl
      · exact Relation.EqvGen.refl _
      · exact base
      · exact Relation.EqvGen.symm _ _ base
      · exact Relation.EqvGen.refl _
    · exact eqv_mono_append (h.conn p hmem a b ha hb)
  · intro pr hpr
    rcases List.mem_append.mp hpr with hpr | hpr
    · rcases h.joined pr hpr with ⟨p, hmem, hpa⟩
      exact ⟨p, List.mem_cons_of_mem _ hmem, hpa⟩
    · rcases List.mem_singleton.mp hpr with rfl
      exact ⟨(Pile.new r).push l, List.mem_cons_self _ _,
        pHas_new_push.mpr (Or.inl rfl), pHas_new_push.mpr (Or.inr rfl)⟩

/-- Branches (Some, None) and (None, Some) of the union step: the image v not
yet in any pile is inserted into the pile holding u, where (u, v) is the
processed pair (l, r) in one of its two orientations. -/
theorem inv_step_insert {pairs : List (Image × Image)} {P : Pile} {rest : List Pile}
    {l r u v : Image}
    (h : Inv pairs (P :: rest))
    (huv : (u = l ∧ v = r) ∨ (u = r ∧ v = l))
    (hu : pHas P u.path)
    (hv : ¬ covered (P :: rest) v.path) :
    Inv (pairs ++ [(l, r)]) ((P.push v) :: rest) := by
  have hPrest := List.pairwise_cons.mp h.disj
  have huvrel : Relation.EqvGen (prel (pairs ++ [(l, r)])) u.path v.path := by
    rcases huv with ⟨rfl, rfl⟩ | ⟨rfl, rfl⟩
    · exact Relation.EqvGen.rel _ _ prel_new_pair
    · exact Relation.EqvGen.symm _ _ (Relation.EqvGen.rel _ _ prel_new_pair)
  refine ⟨?_, ?_, ?_, ?_, ?_⟩
  · intro p hmem
    rcases List.mem_cons.mp hmem with rfl | hmem
    · exact push_pictures_ne_nil
    · exact h.nonempty p (List.mem_cons_of_mem _ hmem)
  · refine List.pairwise_cons.mpr ⟨?_, hPrest.2⟩
    intro q hq a ha hqa
    rcases pHas_push.mp ha with ha | rfl
    · exact hPrest.1 q hq a ha hqa
    · exact hv (covered_cons.mpr (Or.inr ⟨q, hq, hqa⟩))
  · intro a
    rw [covered_cons, pHas_push, endpointOf_append_single, ← h.cover a, covered_cons]
    constructor
    · rintro ((ha | rfl) | hrest)
      · exact Or.inl (Or.inl ha)
      · rcases huv with ⟨rfl, rfl⟩ | ⟨rfl, rfl⟩
        · exact Or.inr (Or.inr rfl)
        · exact Or.inr (Or.inl rfl)
      · exact Or.inl (Or.inr hrest)
    · rintro ((ha | hrest) | rfl | rfl)
      · exact Or.inl (Or.inl ha)
      · exact Or.inr hrest
      · rcases huv with ⟨rfl, rfl⟩ | ⟨rfl, rfl⟩
        · exact Or.inl (Or.inl hu)
        · exact Or.inl (Or.inr rfl)
      · rcases huv with ⟨rfl, rfl⟩ | ⟨rfl, rfl⟩
        · exact Or.inl (Or.inr rfl)
        · exact Or.inl (Or.inl hu)
  · intro p hmem a b ha hb
    rcases List.mem_cons.mp hmem with rfl | hmem
    · have connP : ∀ c, pHas P c →
          Relation.EqvGen (prel (pairs ++ [(l, r)])) c v.path := fun c hc =>
        Relation.EqvGen.trans _ _ _
          (eqv_mono_append (h.conn P (List.mem_cons_self _ _) c u.path hc hu)) huvrel
      rcases pHas_push.mp ha with ha | rfl <;> rcases pHas_push.mp hb with hb | rfl
      · exact eqv_mono_append (h.conn P (List.mem_cons_self _ _) a b ha hb)
      · exact connP a ha
      · exact Relation.EqvGen.symm _ _ (connP b hb)
      · exact Relation.EqvGen.refl _
    · exact eqv_mono_append
        (h.conn p (List.mem_cons_of_mem _ hmem) a b ha hb)
  · intro pr hpr
    rcases List.mem_append.mp hpr with hpr | hpr
    · rcases h.joined pr hpr with ⟨p, hmem, hp1, hp2⟩
      rcases List.mem_cons.mp hmem with rfl | hmem
      · exact ⟨p.push v, List.mem_cons_self _ _,
          pHas_push.mpr (Or.inl hp1), pHas_push.mpr (Or.inl hp2)⟩
      · exact ⟨p, List.mem_cons_of_mem _ hmem, hp1, hp2⟩
    · rcases List.mem_singleton.mp hpr with rfl
      refine ⟨P.push v, List.mem_cons_self _ _, ?_, ?_⟩ <;>
        rcases huv with ⟨rfl, rfl⟩ | ⟨rfl, rfl⟩
      · exact pHas_push.mpr (Or.inl hu)
      · exact pHas_push.mpr (Or.inr rfl)
      · exact pHas_push.mpr (Or.inr rfl)
      · exact pHas_push.mpr (Or.inl hu)

/-- Branch (Some i, Some j) with i = j: both images already share a pile and
the step is a no-op on the pile vector. -/
theorem inv_step_same {pairs : List (Image × Image)} {piles : List Pile} {l r : Image}
    (h : Inv pairs piles)
    (hP : ∃ P ∈ piles, pHas P l.path ∧ pHas P r.path) :
    Inv (pairs ++ [(l, r)]) piles := by
  rcases hP with ⟨P, hmem, hPl, hPr⟩
  refine ⟨h.nonempty, h.disj, ?_, ?_, ?_⟩
  · intro a
    rw [h.cover a, endpointOf_append_single]
    constructor
    · exact fun he => Or.inl he
    · rintro (he | rfl | rfl)
      · exact he
      · exact (h.cover _).mp ⟨P, hmem, hPl⟩
      · exact (h.cover _).mp ⟨P, hmem, hPr⟩
  · intro p hmem2 a b ha hb
    exact eqv_mono_append (h.conn p hmem2 a b ha hb)
  · intro pr hpr
    rcases List.mem_append.mp hpr with hpr | hpr
    · exact h.joined pr hpr
    · rcases List.mem_singleton.mp hpr with rfl
      exact ⟨P, hmem, hPl, hPr⟩

/-- Branch (Some i, Some j) with i not equal to j: the two piles are replaced
by their merge; stated for the cons-permuted form. -/
theorem inv_step_merge {pairs : List (Image × Image)} {P Q : Pile} {rest : List Pile}
    {l r : Image}
    (h : Inv pairs (P :: Q :: rest))
    (hPl : pHas P l.path) (hQr : pHas Q r.path) :
    Inv (pairs ++ [(l, r)]) ((P.merge Q) :: rest) := by
  have hd1 := List.pairwise_cons.mp h.disj
  have hd2 := List.pairwise_cons.mp hd1.2
  have hlr : Relation.EqvGen (prel (pairs ++ [(l, r)])) l.path r.path :=
    Relation.EqvGen.rel _ _ prel_new_pair
  have hPmem : P ∈ P :: Q :: rest := List.mem_cons_self _ _
  have hQmem : Q ∈ P :: Q :: rest := List.mem_cons_of_mem _ (List.mem_cons_self _ _)
  refine ⟨?_, ?_, ?_, ?_, ?_⟩
  · intro p hmem
    rcases List.mem_cons.mp hmem with rfl | hmem
    · exact merge_pictures_ne_nil (h.nonempty P hPmem)
    · exact h.nonempty p (List.mem_cons_of_mem _ (List.mem_cons_of_mem _ hmem))
  · refine List.pairwise_cons.mpr ⟨?_, hd2.2⟩
    intro q hq a ha hqa
    rcases pHas_merge.mp ha with ha | ha
    · exact hd1.1 q (List.mem_cons_of_mem _ hq) a ha hqa
    · exact hd2.1 q hq a ha hqa
  · intro a
    rw [covered_cons, pHas_merge, endpointOf_append_single, ← h.cover a,
      covered_cons, covered_cons]
    constructor
    · rintro ((ha | ha) | hrest)
      · exact Or.inl (Or.inl ha)
      · exact Or.inl (Or.inr (Or.inl ha))
      · exact Or.inl (Or.inr (Or.inr hrest))
    · rintro ((ha | ha | hrest) | rfl | rfl)
      · exact Or.inl (Or.inl ha)
      · exact Or.inl (Or.inr ha)
      · exact Or.inr hrest
      · exact Or.inl (Or.inl hPl)
      · exact Or.inl (Or.inr hQr)
  · intro p hmem a b ha hb
    rcases List.mem_cons.mp hmem with rfl | hmem
    · have hPside : ∀ c, pHas P c →
          Relation.EqvGen (prel (pairs ++ [(l, r)])) c r.path := fun c hc =>
        Relation.EqvGen.trans _ _ _
          (eqv_mono_append (h.conn P hPmem c l.path hc hPl)) hlr
      rcases pHas_merge.mp ha with ha | ha <;> rcases pHas_merge.mp hb with hb | hb
      · exact eqv_mono_append (h.conn P hPmem a b ha hb)
      · exact Relation.EqvGen.trans _ _ _ (hPside a ha)
          (eqv_mono_append (h.conn Q hQmem r.path b hQr hb))
      · exact Relation.EqvGen.symm _ _ (Relation.EqvGen.trans _ _ _ (hPside b hb)
          (eqv_mono_append (h.conn Q hQmem r.path a hQr ha)))
      · exact eqv_mono_append (h.conn Q hQmem a b ha hb)
    · exact eqv_mono_append
        (h.conn p (List.mem_cons_of_mem _ (List.mem_cons_of_mem _ hmem)) a b ha hb)
  · intro pr hpr
    rcases List.mem_append.mp hpr with hpr | hpr
    · rcases h.joined pr hpr with ⟨p, hmem, hp1, hp2⟩
      rcases List.mem_cons.mp hmem with rfl | hmem
      · exact ⟨p.merge Q, List.mem_cons_self _ _,
          pHas_merge.mpr (Or.inl hp1), pHas_merge.mpr (Or.inl hp2)⟩
      rcases List.mem_cons.mp hmem with rfl | hmem
      · exact ⟨P.merge p, List.mem_cons_self _ _,
          pHas_merge.mpr (Or.inr hp1), pHas_merge.mpr (Or.inr hp2)⟩
      · exact ⟨p, List.mem_cons_of_mem _ hmem, hp1, hp2⟩
    · rcases List.mem_singleton.mp hpr with rfl
      exact ⟨P.merge Q, List.mem_cons_self _ _,
        pHas_merge.mpr (Or.inl hPl), pHas_merge.mpr (Or.inr hQr)⟩

/-- One union step preserves the invariant, extending the processed pair
list by the pair just handled. -/
theorem unionStep_inv {pairs : List (Image × Image)} {piles : List Pile}
    (h : Inv pairs piles) (l r : Image) :
    Inv (pairs ++ [(l, r)]) (unionStep piles (l, r)) := by
  rcases hlp : position (fun pile => containsImg pile.pictures l) piles with _ | i <;>
    rcases hrp : position (fun pile => containsImg pile.pictures r) piles with _ | j
  · have hres : unionStep piles (l, r) = piles ++ [(Pile.new r).push l] := by
      simp only [unionStep]
      rw [hlp, hrp]
    rw [hres]
    exact (inv_step_new h (position_none_not_covered hlp)
      (position_none_not_covered hrp)).perm (List.perm_append_singleton _ _).symm
  · have hres : unionStep piles (l, r)
        = piles.set j ((piles.getD j default).push l) := by
      simp only [unionStep]
      rw [hlp, hrp]
    have hj := position_some (d := default) hrp
    have hperm1 : piles.Perm (piles.getD j default :: piles.eraseIdx j) :=
      perm_getD_cons_eraseIdx hj.1 default
    have h1 : Inv pairs (piles.getD j default :: piles.eraseIdx j) := h.perm hperm1
    have hQr : pHas (piles.getD j default) r.path := containsImg_iff.mp hj.2
    have hcov : ¬ covered (piles.getD j default :: piles.eraseIdx j) l.path := fun hc =>
      position_none_not_covered hlp ((covered_perm hperm1).mpr hc)
    have h2 := inv_step_insert h1 (Or.inr ⟨rfl, rfl⟩) hQr hcov
    rw [hres]
    exact h2.perm (set_perm hj.1 _).symm
  · have hres : unionStep piles (l, r)
        = piles.set i ((piles.getD i default).push r) := by
      simp only [unionStep]
      rw [hlp, hrp]
    have hi := position_some (d := default) hlp
    have hperm1 : piles.Perm (piles.getD i default :: piles.eraseIdx i) :=
      perm_getD_cons_eraseIdx hi.1 default
    have h1 : Inv pairs (piles.getD i default :: piles.eraseIdx i) := h.perm hperm1
    have hPl : pHas (piles.getD i default) l.path := containsImg_iff.mp hi.2
    have hcov : ¬ covered (piles.getD i default :: piles.eraseIdx i) r.path := fun hc =>
      position_none_not_covered hrp ((covered_perm hperm1).mpr hc)
    have h2 := inv_step_insert h1 (Or.inl ⟨rfl, rfl⟩) hPl hcov
    rw [hres]
    exact h2.perm (set_perm hi.1 _).symm
  · have hi := position_some (d := default) hlp
    have hj := position_some (d := default) hrp
    by_cases hij : i = j
    · subst hij
      have hres : unionStep piles (l, r) = piles := by
        simp only [unionStep]
        rw [hlp, hrp]
        simp
      rw [hres]
      exact inv_step_same h ⟨piles.getD i default, getD_mem hi.1 default,
        containsImg_iff.mp hi.2, containsImg_iff.mp hj.2⟩
    · have hlen1 : ((piles.set j (piles.getD (piles.length - 1) default)).dropLast).length
          = piles.length - 1 := by
        rw [List.length_dropLast, List.length_set]
      have hres : unionStep piles (l, r) =
          ((piles.set j (piles.getD (piles.length - 1) default)).dropLast).set
            (if i = ((piles.set j (piles.getD (piles.length - 1) default)).dropLast).length
              then j else i)
            ((((piles.set j (piles.getD (piles.length - 1) default)).dropLast).getD
              (if i = ((piles.set j (piles.getD (piles.length - 1) default)).dropLast).length
                then j else i) default).merge (piles.getD j default)) := by
        simp only [unionStep]
        rw [hlp, hrp]
        simp [hij]
      have hk : (if i = ((piles.set j (piles.getD (piles.length - 1) default)).dropLast).length
            then j else i)
          < ((piles.set j (piles.getD (piles.length - 1) default)).dropLast).length := by
        by_cases hcase :
            i = ((piles.set j (piles.getD (piles.length - 1) default)).dropLast).length
        · rw [if_pos hcase]
          rw [hlen1] at hcase ⊢
          omega
        · rw [if_neg hcase]
          rw [hlen1] at hcase ⊢
          omega
      have hgetD : ((piles.set j (piles.getD (piles.length - 1) default)).dropLast).getD
            (if i = ((piles.set j (piles.getD (piles.length - 1) default)).dropLast).length
              then j else i) default
          = piles.getD i default := by
        by_cases hcase :
            i = ((piles.set j (piles.getD (piles.length - 1) default)).dropLast).length
        · rw [if_pos hcase] at hk ⊢
          rw [getD_dropLast hk default, getD_set_self hj.1]
          rw [hlen1] at hcase
          rw [hcase]
        · rw [if_neg hcase] at hk ⊢
          rw [getD_dropLast hk default, getD_set_ne (fun hji => hij hji.symm)]
      have hperm2 : (piles.getD j default ::
            (piles.set j (piles.getD (piles.length - 1) default)).dropLast).Perm piles :=
        swapRemove_cons_perm hj.1 default
      have hperm3 : ((piles.set j (piles.getD (piles.length - 1) default)).dropLast).Perm
          (piles.getD i default ::
            ((piles.set j (piles.getD (piles.length - 1) default)).dropLast).eraseIdx
              (if i = ((piles.set j (piles.getD (piles.length - 1) default)).dropLast).length
                then j else i)) := by
        rw [← hgetD]
        exact perm_getD_cons_eraseIdx hk default
      have hperm4 : (piles.getD i default :: piles.getD j default ::
            ((piles.set j (piles.getD (piles.length - 1) default)).dropLast).eraseIdx
              (if i = ((piles.set j (piles.getD (piles.length - 1) default)).dropLast).length
                then j else i)).Perm piles := by
        refine List.Perm.trans (List.Perm.swap _ _ _) ?_
        exact List.Perm.trans (List.Perm.cons _ hperm3.symm) hperm2
      have h1 := h.perm hperm4.symm
      have h2 := inv_step_merge h1 (containsImg_iff.mp hi.2) (containsImg_iff.mp hj.2)
      rw [hres, hgetD]
      exact h2.perm (set_perm hk _).symm

theorem inv_nil : Inv [] [] := by
  refine ⟨?_, List.Pairwise.nil, ?_, ?_, ?_⟩
  · intro p hp; cases hp
  · intro a
    constructor
    · rintro ⟨p, hp, _⟩; cases hp
    · rintro ⟨pr, hpr, _⟩; cases hpr
  · intro p hp; cases hp
  · intro pr hpr; cases hpr

theorem foldl_inv : ∀ (todo done : List (Image × Image)) (piles : List Pile),
    Inv done piles → Inv (done ++ todo) (todo.foldl unionStep piles)
  | [], _, _, h => by simpa using h
  | pr :: todo, done, piles, h => by
    have h1 : Inv (done ++ [pr]) (unionStep piles pr) := by
      cases pr with
      | mk l r => exact unionStep_inv h l r
    have h2 := foldl_inv todo (done ++ [pr]) _ h1
    simpa using h2

/-- The invariant holds of the final pile list produced by the fold. -/
theorem formPiles_inv (pairs : List (Image × Image)) : Inv pairs (formPiles pairs) := by
  have := foldl_inv pairs [] [] inv_nil
  simpa [formPiles] using this

/-! Characterisation of the final partition as the equivalence closure of the
processed pair relation. -/

theorem samePile_of_eqvGen {pairs : List (Image × Image)} {piles : List Pile}
    (h : Inv pairs piles) :
    ∀ a b, Relation.EqvGen (prel pairs) a b → a = b ∨ samePile piles a b := by
  intro a b hab
  induction hab with
  | rel x y hxy =>
    right
    rcases hxy with ⟨pr, hpr, hor⟩
    rcases h.joined pr hpr with ⟨P, hP, h1, h2⟩
    rcases hor with ⟨rfl, rfl⟩ | ⟨rfl, rfl⟩
    · exact ⟨P, hP, h1, h2⟩
    · exact ⟨P, hP, h2, h1⟩
  | refl x => exact Or.inl rfl
  | symm x y _ ih =>
    rcases ih with rfl | ⟨P, hP, h1, h2⟩
    · exact Or.inl rfl
    · exact Or.inr ⟨P, hP, h2, h1⟩
  | trans x y z _ _ ih1 ih2 =>
    rcases ih1 with rfl | ⟨P, hP, hx, hy⟩
    · exact ih2
    · rcases ih2 with rfl | ⟨Q, hQ, hy2, hz⟩
      · exact Or.inr ⟨P, hP, hx, hy⟩
      · rcases pile_unique h.disj hP hQ hy hy2 with rfl
        exact Or.inr ⟨P, hP, hx, hz⟩

/-- Under the invariant, two paths share a pile exactly when they are both
endpoints of processed pairs and lie in one equivalence class of the
processed relation. -/
theorem samePile_iff {pairs : List (Image × Image)} {piles : List Pile}
    (h : Inv pairs piles) {a b : Nat} :
    samePile piles a b ↔
      Relation.EqvGen (prel pairs) a b ∧ endpointOf pairs a ∧ endpointOf pairs b := by
  constructor
  · rintro ⟨P, hP, ha, hb⟩
    exact ⟨h.conn P hP a b ha hb, (h.cover a).mp ⟨P, hP, ha⟩, (h.cover b).mp ⟨P, hP, hb⟩⟩
  · rintro ⟨heqv, hea, heb⟩
    rcases samePile_of_eqvGen h a b heqv with rfl | hs
    · rcases (h.cover a).mpr hea with ⟨P, hP, hPa⟩
      exact ⟨P, hP, hPa, hPa⟩
    · exact hs

theorem pileSet_eq_classSet {pairs : List (Image × Image)} {piles : List Pile}
    (h : Inv pairs piles) {P : Pile} (hP : P ∈ piles) {a : Nat} (hPa : pHas P a) :
    pileSet P = classSet pairs a := by
  ext b
  show pHas P b ↔ _
  constructor
  · intro hPb
    exact ⟨h.conn P hP a b hPa hPb, (h.cover b).mp ⟨P, hP, hPb⟩⟩
  · rintro ⟨heqv, heb⟩
    have hsp : samePile piles a b :=
      (samePile_iff h).mpr ⟨heqv, (h.cover a).mp ⟨P, hP, hPa⟩, heb⟩
    rcases hsp with ⟨Q, hQ, hQa, hQb⟩
    rcases pile_unique h.disj hP hQ hPa hQa with rfl
    exact hQb

/-- Under the invariant the partition is exactly the family of equivalence
classes of endpoints. -/
theorem pileSets_eq_classes {pairs : List (Image × Image)} {piles : List Pile}
    (h : Inv pairs piles) :
    pileSets piles = {S | ∃ a, endpointOf pairs a ∧ S = classSet pairs a} := by
  ext S
  constructor
  · rintro ⟨P, hP, rfl⟩
    rcases List.exists_mem_of_ne_nil _ (h.nonempty P hP) with ⟨img, hmem⟩
    have hPa : pHas P img.path := ⟨img, hmem, rfl⟩
    exact ⟨img.path, (h.cover _).mp ⟨P, hP, hPa⟩, pileSet_eq_classSet h hP hPa⟩
  · rintro ⟨a, hea, rfl⟩
    rcases (h.cover a).mpr hea with ⟨P, hP, hPa⟩
    exact ⟨P, hP, (pileSet_eq_classSet h hP hPa).symm⟩

/-! Stability of the relational vocabulary under permutation of the pair
list, and the bridge to the match relation on images. -/

theorem endpointOf_perm {pairs1 pairs2 : List (Image × Image)}
    (hp : pairs1.Perm pairs2) {a : Nat} :
    endpointOf pairs1 a ↔ endpointOf pairs2 a := by
  unfold endpointOf
  constructor
  · rintro ⟨pr, hpr, hor⟩
    exact ⟨pr, hp.mem_iff.mp hpr, hor⟩
  · rintro ⟨pr, hpr, hor⟩
    exact ⟨pr, hp.mem_iff.mpr hpr, hor⟩

theorem prel_perm {pairs1 pairs2 : List (Image × Image)}
    (hp : pairs1.Perm pairs2) {a b : Nat} :
    prel pairs1 a b ↔ prel pairs2 a b := by
  unfold prel
  constructor
  · rintro ⟨pr, hpr, hor⟩
    exact ⟨pr, hp.mem_iff.mp hpr, hor⟩
  · rintro ⟨pr, hpr, hor⟩
    exact ⟨pr, hp.mem_iff.mpr hpr, hor⟩

theorem eqvGen_congr {r r2 : Nat → Nat → Prop} (hr : ∀ a b, r a b ↔ r2 a b) {a b : Nat} :
    Relation.EqvGen r a b ↔ Relation.EqvGen r2 a b :=
  ⟨Relation.EqvGen.mono fun x y h => (hr x y).mp h,
   Relation.EqvGen.mono fun x y h => (hr x y).mpr h⟩

theorem bne_comm' (x y : Bool) : (x != y) = (y != x) := by
  cases x <;> cases y <;> rfl

theorem dist_comm' : ∀ (a b : List Bool), dist a b = dist b a := by
  intro a
  induction a with
  | nil => intro b; cases b <;> rfl
  | cons x t ih =>
    intro b
    cases b with
    | nil => rfl
    | cons y s =>
      show (((x, y) :: t.zip s).filter fun p => p.1 != p.2).length
        = (((y, x) :: s.zip t).filter fun p => p.1 != p.2).length
      rw [List.filter_cons, List.filter_cons]
      have hxy : ((x, y).1 != (x, y).2) = ((y, x).1 != (y, x).2) := bne_comm' x y
      rw [hxy]
      by_cases hcase : ((y, x).1 != (y, x).2) = true
      · rw [if_pos hcase, if_pos hcase]
        simp only [List.length_cons]
        exact congrArg (· + 1) (ih s)
      · rw [if_neg hcase, if_neg hcase]
        exact ih s

theorem dist_self (a : List Bool) : dist a a = 0 := by
  induction a with
  | nil => rfl
  | cons x t ih =>
    show (((x, x) :: t.zip t).filter fun p => p.1 != p.2).length = 0
    rw [List.filter_cons]
    have hne : ((x, x).1 != (x, x).2) = false := by cases x <;> rfl
    rw [hne]
    show (((t.zip t).filter fun p => p.1 != p.2)).length = 0
    exact ih

theorem abs_sub_comm' (x y : Int) : abs (x - y) = abs (y - x) := by
  unfold abs
  split_ifs <;> omega

theorem isMatch_symm (l r : Image) : isMatch l r = isMatch r l := by
  unfold isMatch
  rw [dist_comm', abs_sub_comm']

theorem isMatch_self (i : Image) : isMatch i i = true := by
  unfold isMatch
  rw [dist_self]
  simp [abs]

theorem mem_of_mem_tupleCombinations {α : Type} {a b : α} :
    ∀ {l : List α}, (a, b) ∈ tupleCombinations l → a ∈ l ∧ b ∈ l := by
  intro l
  induction l with
  | nil => intro h; cases h
  | cons x t ih =>
    intro h
    rcases List.mem_append.mp h with h | h
    · rcases List.mem_map.mp h with ⟨y, hy, heq⟩
      cases heq
      exact ⟨List.mem_cons_self _ _, List.mem_cons_of_mem _ hy⟩
    · rcases ih h with ⟨ha, hb⟩
      exact ⟨List.mem_cons_of_mem _ ha, List.mem_cons_of_mem _ hb⟩

theorem tupleCombinations_of_ne {α : Type} {a b : α} :
    ∀ {l : List α}, a ∈ l → b ∈ l → a ≠ b →
      (a, b) ∈ tupleCombinations l ∨ (b, a) ∈ tupleCombinations l := by
  intro l
  induction l with
  | nil => intro ha; cases ha
  | cons x t ih =>
    intro ha hb hab
    rcases List.mem_cons.mp ha with hax | ha2
    · rcases List.mem_cons.mp hb with hbx | hb2
      · exact absurd (hax.trans hbx.symm) hab
      · subst hax
        exact Or.inl (List.mem_append_left _ (List.mem_map.mpr ⟨b, hb2, rfl⟩))
    · rcases List.mem_cons.mp hb with hbx | hb2
      · subst hbx
        exact Or.inr (List.mem_append_left _ (List.mem_map.mpr ⟨a, ha2, rfl⟩))
      · rcases ih ha2 hb2 hab with h | h
        · exact Or.inl (List.mem_append_right _ h)
        · exact Or.inr (List.mem_append_right _ h)

theorem enginePairs_sound {images : List Image} {pr : Image × Image}
    (h : pr ∈ enginePairs images) :
    pr.1 ∈ images ∧ pr.2 ∈ images ∧ isMatch pr.1 pr.2 = true := by
  rcases List.mem_append.mp h with h | h
  · rcases List.mem_filter.mp h with ⟨hmem, hmatch⟩
    rcases pr with ⟨a, b⟩
    rcases mem_of_mem_tupleCombinations hmem with ⟨ha, hb⟩
    exact ⟨ha, hb, hmatch⟩
  · rcases List.mem_map.mp h with ⟨i, hi, heq⟩
    cases heq
    exact ⟨hi, hi, isMatch_self i⟩

theorem enginePairs_complete {images : List Image} {l r : Image}
    (hl : l ∈ images) (hr : r ∈ images) (hne : l ≠ r) (hm : isMatch l r = true) :
    (l, r) ∈ enginePairs images ∨ (r, l) ∈ enginePairs images := by
  rcases tupleCombinations_of_ne hl hr hne with h | h
  · exact Or.inl (List.mem_append_left _ (List.mem_filter.mpr ⟨h, hm⟩))
  · refine Or.inr (List.mem_append_left _ (List.mem_filter.mpr ⟨h, ?_⟩))
    rw [← isMatch_symm]
    exact hm

theorem self_mem_enginePairs {images : List Image} {i : Image} (hi : i ∈ images) :
    (i, i) ∈ enginePairs images :=
  List.mem_append_right _ (List.mem_map.mpr ⟨i, hi, rfl⟩)

theorem endpointOf_enginePairs {images : List Image} {a : Nat} :
    endpointOf (enginePairs images) a ↔ ∃ i ∈ images, i.path = a := by
  constructor
  · rintro ⟨pr, hpr, hor⟩
    rcases enginePairs_sound hpr with ⟨h1, h2, _⟩
    rcases hor with rfl | rfl
    · exact ⟨pr.1, h1, rfl⟩
    · exact ⟨pr.2, h2, rfl⟩
  · rintro ⟨i, hi, rfl⟩
    exact ⟨(i, i), self_mem_enginePairs hi, Or.inl rfl⟩

theorem prel_enginePairs_matchRel {images : List Image} {a b : Nat}
    (h : prel (enginePairs images) a b) : matchRel images a b := by
  rcases h with ⟨pr, hpr, hor⟩
  rcases enginePairs_sound hpr with ⟨h1, h2, hm⟩
  rcases hor with ⟨rfl, rfl⟩ | ⟨rfl, rfl⟩
  · exact ⟨pr.1, h1, pr.2, h2, rfl, rfl, hm⟩
  · refine ⟨pr.2, h2, pr.1, h1, rfl, rfl, ?_⟩
    rw [isMatch_symm]
    exact hm

theorem matchRel_eqvGen_prel {images : List Image} {a b : Nat}
    (h : matchRel images a b) :
    Relation.EqvGen (prel (enginePairs images)) a b := by
  rcases h with ⟨l, hl, r, hr, rfl, rfl, hm⟩
  by_cases hlr : l = r
  · subst hlr
    exact Relation.EqvGen.refl _
  · rcases enginePairs_complete hl hr hlr hm with hmem | hmem
    · exact Relation.EqvGen.rel _ _ ⟨(l, r), hmem, Or.inl ⟨rfl, rfl⟩⟩
    · exact Relation.EqvGen.rel _ _ ⟨(r, l), hmem, Or.inr ⟨rfl, rfl⟩⟩

theorem eqvGen_enginePairs_matchRel {images : List Image} {a b : Nat} :
    Relation.EqvGen (prel (enginePairs images)) a b ↔
      Relation.EqvGen (matchRel images) a b := by
  constructor
  · exact Relation.EqvGen.mono fun x y h => prel_enginePairs_matchRel h
  · intro h
    induction h with
    | rel x y hxy => exact matchRel_eqvGen_prel hxy
    | refl x => exact Relation.EqvGen.refl _
    | symm x y _ ih => exact Relation.EqvGen.symm _ _ ih
    | trans x y z _ _ ih1 ih2 => exact Relation.EqvGen.trans _ _ _ ih1 ih2

theorem nodup_path_inj {images : List Image} (hnd : (images.map Image.path).Nodup)
    {x y : Image} (hx : x ∈ images) (hy : y ∈ images) (hpath : x.path = y.path) : x = y :=
  List.inj_on_of_nodup_map hnd hx hy hpath

/-- If an image matches no image of a different path, then the closure of the
engine relation cannot leave its path. -/
theorem eqvGen_isolated {images : List Image} {i : Image}
    (hnd : (images.map Image.path).Nodup) (hi : i ∈ images)
    (hno : ∀ j ∈ images, j.path ≠ i.path → isMatch i j = false) :
    ∀ a b, Relation.EqvGen (prel (enginePairs images)) a b → (a = i.path ↔ b = i.path) := by
  have hkey : ∀ (u v : Image), u ∈ images → v ∈ images → isMatch u v = true →
      u.path = i.path → v.path = i.path := by
    intro u v hu hv hm hupath
    by_contra hvpath
    have hui : u = i := nodup_path_inj hnd hu hi hupath
    subst hui
    rw [hno v hv hvpath] at hm
    exact absurd hm (by decide)
  have hstep : ∀ a b, prel (enginePairs images) a b → (a = i.path ↔ b = i.path) := by
    intro a b hab
    rcases hab with ⟨pr, hpr, hor⟩
    rcases enginePairs_sound hpr with ⟨h1, h2, hm⟩
    have hm2 : isMatch pr.2 pr.1 = true := by
      rw [isMatch_symm]
      exact hm
    rcases hor with ⟨rfl, rfl⟩ | ⟨rfl, rfl⟩
    · exact ⟨fun h => hkey _ _ h1 h2 hm h, fun h => hkey _ _ h2 h1 hm2 h⟩
    · exact ⟨fun h => hkey _ _ h2 h1 hm2 h, fun h => hkey _ _ h1 h2 hm h⟩
  intro a b hab
  induction hab with
  | rel x y hxy => exact hstep x y hxy
  | refl x => exact Iff.rfl
  | symm x y _ ih => exact ih.symm
  | trans x y z _ _ ih1 ih2 => exact ih1.trans ih2

/-- C1: for every set of successfully extracted images (path is the identity
of an image, so image paths are distinct), the pile list produced by the fold
of Repository::new over the matched pairs plus self-pairs is a partition of
the image set: every pile is non-empty, the union of the pile member sets is
exactly the set of image paths, the piles are pairwise disjoint, and an image
matching no other image ends up in its own singleton pile. -/
theorem C1_partition (images : List Image) (hnd : (images.map Image.path).Nodup) :
    (∀ p ∈ formPiles (enginePairs images), p.pictures ≠ []) ∧
    (∀ a, covered (formPiles (enginePairs images)) a ↔ ∃ i ∈ images, i.path = a) ∧
    (formPiles (enginePairs images)).Pairwise Disj ∧
    (∀ i ∈ images, (∀ j ∈ images, j.path ≠ i.path → isMatch i j = false) →
      ∃ p ∈ formPiles (enginePairs images), pHas p i.path ∧
        ∀ a, pHas p a → a = i.path) := by
  have h := formPiles_inv (enginePairs images)
  refine ⟨h.nonempty, ?_, h.disj, ?_⟩
  · intro a
    rw [h.cover a]
    exact endpointOf_enginePairs
  · intro i hi hno
    have hcov : covered (formPiles (enginePairs images)) i.path :=
      (h.cover _).mpr (endpointOf_enginePairs.mpr ⟨i, hi, rfl⟩)
    rcases hcov with ⟨p, hp, hpi⟩
    refine ⟨p, hp, hpi, ?_⟩
    intro a hpa
    have heqv := h.conn p hp i.path a hpi hpa
    exact (eqvGen_isolated hnd hi hno i.path a heqv).mp rfl

/-- Witness for C1 at a concrete image list. -/
theorem C1_partition_witness :
    (∀ p ∈ formPiles (enginePairs imagesW), p.pictures ≠ []) ∧
    (∀ a, covered (formPiles (enginePairs imagesW)) a ↔ ∃ i ∈ imagesW, i.path = a) ∧
    (formPiles (enginePairs imagesW)).Pairwise Disj ∧
    (∀ i ∈ imagesW, (∀ j ∈ imagesW, j.path ≠ i.path → isMatch i j = false) →
      ∃ p ∈ formPiles (enginePairs imagesW), pHas p i.path ∧
        ∀ a, pHas p a → a = i.path) :=
  C1_partition imagesW (by decide)

/-- C2: for distinct images i and j of the run, the engine treats the pair as
a match (it appears in the pair list in one of its two orientations) exactly
when the hash Hamming distance is strictly below 10 AND the absolute
timestamp difference is strictly below 30 minutes; and every self-pair is in
the pair list unconditionally. -/
theorem C2_matchIff (images : List Image) (i j : Image)
    (hi : i ∈ images) (hj : j ∈ images) (hij : i ≠ j) :
    (((i, j) ∈ enginePairs images ∨ (j, i) ∈ enginePairs images) ↔
      (dist i.hash j.hash < 10 ∧ abs (i.timestamp - j.timestamp) < 30 * 60)) ∧
    (i, i) ∈ enginePairs images := by
  constructor
  · constructor
    · rintro (hm | hm)
      · have hs := (enginePairs_sound hm).2.2
        unfold isMatch at hs
        simp only [Bool.and_eq_true, decide_eq_true_eq] at hs
        exact ⟨hs.2, hs.1⟩
      · have hs := (enginePairs_sound hm).2.2
        rw [← isMatch_symm] at hs
        unfold isMatch at hs
        simp only [Bool.and_eq_true, decide_eq_true_eq] at hs
        exact ⟨hs.2, hs.1⟩
    · rintro ⟨hd, ht⟩
      have hm : isMatch i j = true := by
        unfold isMatch
        simp only [Bool.and_eq_true, decide_eq_true_eq]
        exact ⟨ht, hd⟩
      exact enginePairs_complete hi hj hij hm
  · exact self_mem_enginePairs hi

/-- Witness for C2 at a concrete pair of distinct images. -/
theorem C2_matchIff_witness :
    (((imgW1, imgW2) ∈ enginePairs imagesW ∨ (imgW2, imgW1) ∈ enginePairs imagesW) ↔
      (dist imgW1.hash imgW2.hash < 10 ∧
        abs (imgW1.timestamp - imgW2.timestamp) < 30 * 60)) ∧
    (imgW1, imgW1) ∈ enginePairs imagesW :=
  C2_matchIff imagesW imgW1 imgW2 (by decide) (by decide) (by decide)

/-- C3: feeding the union fold any permutation of the matched-pair list
yields the same partition, namely the connected components (equivalence
closure) of the symmetric match relation restricted to the image paths; in
particular a chain A-B, B-C lands A, B and C in one pile even when A and C do
not match directly. -/
theorem C3_orderIndependence (images : List Image) (pairs : List (Image × Image))
    (hperm : pairs.Perm (enginePairs images)) :
    (∀ a b, samePile (formPiles pairs) a b ↔
      (Relation.EqvGen (matchRel images) a b ∧
        (∃ x ∈ images, x.path = a) ∧ (∃ x ∈ images, x.path = b))) ∧
    pileSets (formPiles pairs) = pileSets (formPiles (enginePairs images)) ∧
    (∀ A B C, A ∈ images → B ∈ images → C ∈ images → A ≠ B → B ≠ C →
      isMatch A B = true → isMatch B C = true →
      ∃ p ∈ formPiles pairs, pHas p A.path ∧ pHas p B.path ∧ pHas p C.path) := by
  have hpp := formPiles_inv pairs
  have hpe := formPiles_inv (enginePairs images)
  have hchar : ∀ a b, samePile (formPiles pairs) a b ↔
      (Relation.EqvGen (matchRel images) a b ∧
        (∃ x ∈ images, x.path = a) ∧ (∃ x ∈ images, x.path = b)) := by
    intro a b
    rw [samePile_iff hpp,
      eqvGen_congr (fun x y => prel_perm hperm),
      eqvGen_enginePairs_matchRel,
      endpointOf_perm hperm, endpointOf_perm hperm,
      endpointOf_enginePairs, endpointOf_enginePairs]
  refine ⟨hchar, ?_, ?_⟩
  · rw [pileSets_eq_classes hpp, pileSets_eq_classes hpe]
    have hcs : ∀ a, classSet pairs a = classSet (enginePairs images) a := by
      intro a
      ext b
      show (_ ∧ _) ↔ (_ ∧ _)
      rw [eqvGen_congr (fun x y => prel_perm hperm), endpointOf_perm hperm]
    ext S
    constructor
    · rintro ⟨a, hea, rfl⟩
      exact ⟨a, (endpointOf_perm hperm).mp hea, hcs a⟩
    · rintro ⟨a, hea, rfl⟩
      exact ⟨a, (endpointOf_perm hperm).mpr hea, (hcs a).symm⟩
  · intro A B C hA hB hC hAB hBC hmAB hmBC
    have h1 : Relation.EqvGen (matchRel images) A.path B.path :=
      Relation.EqvGen.rel _ _ ⟨A, hA, B, hB, rfl, rfl, hmAB⟩
    have h2 : Relation.EqvGen (matchRel images) B.path C.path :=
      Relation.EqvGen.rel _ _ ⟨B, hB, C, hC, rfl, rfl, hmBC⟩
    have hAC := Relation.EqvGen.trans _ _ _ h1 h2
    have sAB : samePile (formPiles pairs) A.path B.path :=
      (hchar _ _).mpr ⟨h1, ⟨A, hA, rfl⟩, ⟨B, hB, rfl⟩⟩
    have sAC : samePile (formPiles pairs) A.path C.path :=
      (hchar _ _).mpr ⟨hAC, ⟨A, hA, rfl⟩, ⟨C, hC, rfl⟩⟩
    rcases sAB with ⟨P, hP, hPA, hPB⟩
    rcases sAC with ⟨Q, hQ, hQA, hQC⟩
    rcases pile_unique hpp.disj hP hQ hPA hQA with rfl
    exact ⟨P, hP, hPA, hPB, hQC⟩

/-- Witness for C3 at the identity permutation of a concrete pair list. -/
theorem C3_orderIndependence_witness :
    (∀ a b, samePile (formPiles (enginePairs imagesW)) a b ↔
      (Relation.EqvGen (matchRel imagesW) a b ∧
        (∃ x ∈ imagesW, x.path = a) ∧ (∃ x ∈ imagesW, x.path = b))) ∧
    pileSets (formPiles (enginePairs imagesW))
      = pileSets (formPiles (enginePairs imagesW)) ∧
    (∀ A B C, A ∈ imagesW → B ∈ imagesW → C ∈ imagesW → A ≠ B → B ≠ C →
      isMatch A B = true → isMatch B C = true →
      ∃ p ∈ formPiles (enginePairs imagesW),
        pHas p A.path ∧ pHas p B.path ∧ pHas p C.path) :=
  C3_orderIndependence imagesW (enginePairs imagesW) (List.Perm.refl _)

/-! The date invariant of piles. -/

theorem Image.date_mono {m x : Image} (h : m.timestamp ≤ x.timestamp) : m.date ≤ x.date :=
  Int.ediv_le_ediv (by norm_num) h

theorem foldl_min_spec (acc : Int) (rest : List Image) :
    (rest.foldl (fun a q => min a q.date) acc ≤ acc ∧
      ∀ y ∈ rest, rest.foldl (fun a q => min a q.date) acc ≤ y.date) ∧
    (rest.foldl (fun a q => min a q.date) acc = acc ∨
      ∃ y ∈ rest, rest.foldl (fun a q => min a q.date) acc = y.date) := by
  induction rest generalizing acc with
  | nil => exact ⟨⟨le_refl _, fun y hy => absurd hy (List.not_mem_nil _)⟩, Or.inl rfl⟩
  | cons z t ih =>
    simp only [List.foldl_cons]
    rcases ih (min acc z.date) with ⟨⟨hle, hall⟩, hat⟩
    refine ⟨⟨hle.trans (min_le_left _ _), ?_⟩, ?_⟩
    · intro y hy
      rcases List.mem_cons.mp hy with rfl | hy
      · exact hle.trans (min_le_right _ _)
      · exact hall y hy
    · rcases hat with heq | ⟨y, hy, heq⟩
      · rcases le_total acc z.date with hmin | hmin
        · left
          rw [heq, min_eq_left hmin]
        · right
          exact ⟨z, List.mem_cons_self _ _, by rw [heq, min_eq_right hmin]⟩
      · exact Or.inr ⟨y, List.mem_cons_of_mem _ hy, heq⟩

theorem updateDate_spec {pics : List Image} (hne : pics ≠ []) :
    (∀ y ∈ pics, updateDate pics ≤ y.date) ∧ (∃ y ∈ pics, updateDate pics = y.date) := by
  cases pics with
  | nil => exact absurd rfl hne
  | cons x rest =>
    show (∀ y ∈ x :: rest, rest.foldl (fun a q => min a q.date) x.date ≤ y.date) ∧ _
    rcases foldl_min_spec x.date rest with ⟨⟨hle, hall⟩, hat⟩
    constructor
    · intro y hy
      rcases List.mem_cons.mp hy with rfl | hy
      · exact hle
      · exact hall y hy
    · rcases hat with heq | ⟨y, hy, heq⟩
      · exact ⟨x, List.mem_cons_self _ _, heq⟩
      · exact ⟨y, List.mem_cons_of_mem _ hy, heq⟩

theorem dateInv_of {p : Pile} (hne : p.pictures ≠ [])
    (hdate : p.date = updateDate p.pictures) : DateInv p := by
  rcases updateDate_spec hne with ⟨hall, x0, hx0, heq⟩
  refine ⟨fun x hx => hdate ▸ hall x hx, ⟨x0, hx0, hdate ▸ heq⟩, ?_⟩
  intro m hm hmin
  apply le_antisymm
  · exact hdate ▸ hall m hm
  · rw [hdate, heq]
    exact Image.date_mono (hmin x0 hx0)

/-- C4: at every observed state of a pile — right after Pile::new, after
every push, after every merge — the date equals the minimum of the member
timestamp dates: it is recomputed on each membership change and is never
independently settable. Merge requires the receiving pile to be non-empty
(the Rust code would panic on an empty one, and piles never are). -/
theorem C4_dateInvariant :
    (∀ (img : Image), DateInv (Pile.new img)) ∧
    (∀ (p : Pile) (img : Image), DateInv (p.push img)) ∧
    (∀ (p q : Pile), p.pictures ≠ [] → DateInv (p.merge q)) := by
  refine ⟨?_, ?_, ?_⟩
  · intro img
    exact dateInv_of (List.cons_ne_nil _ _) rfl
  · intro p img
    exact dateInv_of push_pictures_ne_nil rfl
  · intro p q hne
    exact dateInv_of (extendImgs_ne_nil hne) rfl

/-- Witness for C4 on concrete piles. -/
theorem C4_dateInvariant_witness :
    DateInv (Pile.new imgW1) ∧ DateInv ((Pile.new imgW1).push imgW2) ∧
    (Pile.new imgW1).pictures ≠ [] ∧
    DateInv ((Pile.new imgW1).merge (Pile.new imgW3)) :=
  ⟨C4_dateInvariant.1 imgW1, C4_dateInvariant.2.1 (Pile.new imgW1) imgW2, by decide,
    C4_dateInvariant.2.2 (Pile.new imgW1) (Pile.new imgW3) (by decide)⟩

/-- C5: in the merge branch of the union step (left image in pile i, right in
a different pile j), after the swap-remove of slot j the surviving pile that
absorbs the removed members is the pile originally at index i — which now
lives at index j when i was the last index — so afterwards exactly one pile
carries the union of both member sets with its date recomputed as the
minimum over the union, the pile count drops by one, and the remaining piles
are untouched. -/
theorem C5_mergeBranch (piles : List Pile) (l r : Image) (i j : Nat)
    (hlp : position (fun pile => containsImg pile.pictures l) piles = some i)
    (hrp : position (fun pile => containsImg pile.pictures r) piles = some j)
    (hij : i ≠ j) :
    (unionStep piles (l, r)).length = piles.length - 1 ∧
    (unionStep piles (l, r)).getD (if i = piles.length - 1 then j else i) default
      = (piles.getD i default).merge (piles.getD j default) ∧
    (∀ a, pHas ((piles.getD i default).merge (piles.getD j default)) a ↔
      pHas (piles.getD i default) a ∨ pHas (piles.getD j default) a) ∧
    DateInv ((piles.getD i default).merge (piles.getD j default)) ∧
    (∃ rest, piles.Perm (piles.getD i default :: piles.getD j default :: rest) ∧
      (unionStep piles (l, r)).Perm
        ((piles.getD i default).merge (piles.getD j default) :: rest)) := by
  have hi := position_some (d := default) hlp
  have hj := position_some (d := default) hrp
  have hlen1 : ((piles.set j (piles.getD (piles.length - 1) default)).dropLast).length
      = piles.length - 1 := by
    rw [List.length_dropLast, List.length_set]
  have hres : unionStep piles (l, r) =
      ((piles.set j (piles.getD (piles.length - 1) default)).dropLast).set
        (if i = ((piles.set j (piles.getD (piles.length - 1) default)).dropLast).length
          then j else i)
        ((((piles.set j (piles.getD (piles.length - 1) default)).dropLast).getD
          (if i = ((piles.set j (piles.getD (piles.length - 1) default)).dropLast).length
            then j else i) default).merge (piles.getD j default)) := by
    simp only [unionStep]
    rw [hlp, hrp]
    simp [hij]
  have hk : (if i = ((piles.set j (piles.getD (piles.length - 1) default)).dropLast).length
        then j else i)
      < ((piles.set j (piles.getD (piles.length - 1) default)).dropLast).length := by
    by_cases hcase :
        i = ((piles.set j (piles.getD (piles.length - 1) default)).dropLast).length
    · rw [if_pos hcase]
      rw [hlen1] at hcase ⊢
      have := hi.1
      have := hj.1
      omega
    · rw [if_neg hcase]
      rw [hlen1] at hcase ⊢
      have := hi.1
      omega
  have hgetD : ((piles.set j (piles.getD (piles.length - 1) default)).dropLast).getD
        (if i = ((piles.set j (piles.getD (piles.length - 1) default)).dropLast).length
          then j else i) default
      = piles.getD i default := by
    by_cases hcase :
        i = ((piles.set j (piles.getD (piles.length - 1) default)).dropLast).length
    · rw [if_pos hcase] at hk ⊢
      rw [getD_dropLast hk default, getD_set_self hj.1]
      rw [hlen1] at hcase
      rw [hcase]
    · rw [if_neg hcase] at hk ⊢
      rw [getD_dropLast hk default, getD_set_ne (fun hji => hij hji.symm)]
  have hperm2 : (piles.getD j default ::
        (piles.set j (piles.getD (piles.length - 1) default)).dropLast).Perm piles :=
    swapRemove_cons_perm hj.1 default
  have hperm3 : ((piles.set j (piles.getD (piles.length - 1) default)).dropLast).Perm
      (piles.getD i default ::
        ((piles.set j (piles.getD (piles.length - 1) default)).dropLast).eraseIdx
          (if i = ((piles.set j (piles.getD (piles.length - 1) default)).dropLast).length
            then j else i)) := by
    rw [← hgetD]
    exact perm_getD_cons_eraseIdx hk default
  have hperm4 : (piles.getD i default :: piles.getD j default ::
        ((piles.set j (piles.getD (piles.length - 1) default)).dropLast).eraseIdx
          (if i = ((piles.set j (piles.getD (piles.length - 1) default)).dropLast).length
            then j else i)).Perm piles := by
    refine List.Perm.trans (List.Perm.swap _ _ _) ?_
    exact List.Perm.trans (List.Perm.cons _ hperm3.symm) hperm2
  have hkif : (if i = piles.length - 1 then j else i)
      = (if i = ((piles.set j (piles.getD (piles.length - 1) default)).dropLast).length
          then j else i) := by
    rw [hlen1]
  refine ⟨?_, ?_, fun a => pHas_merge, ?_, ?_⟩
  · rw [hres, List.length_set, hlen1]
  · rw [hres, hkif, getD_set_self hk, hgetD]
  · have hPne : (piles.getD i default).pictures ≠ [] := by
      rcases containsImg_iff.mp hi.2 with ⟨y, hy, _⟩
      exact List.ne_nil_of_mem hy
    exact dateInv_of (extendImgs_ne_nil hPne) rfl
  · refine ⟨_, hperm4.symm, ?_⟩
    rw [hres]
    refine (set_perm hk _).trans ?_
    rw [hgetD]

/-- Witness for C5 at concrete piles where the left pile is the last slot. -/
theorem C5_mergeBranch_witness :
    (unionStep pilesW (imgW1, imgW3)).length = pilesW.length - 1 ∧
    (unionStep pilesW (imgW1, imgW3)).getD (if 0 = pilesW.length - 1 then 1 else 0) default
      = (pilesW.getD 0 default).merge (pilesW.getD 1 default) ∧
    (∀ a, pHas ((pilesW.getD 0 default).merge (pilesW.getD 1 default)) a ↔
      pHas (pilesW.getD 0 default) a ∨ pHas (pilesW.getD 1 default) a) ∧
    DateInv ((pilesW.getD 0 default).merge (pilesW.getD 1 default)) ∧
    (∃ rest, pilesW.Perm (pilesW.getD 0 default :: pilesW.getD 1 default :: rest) ∧
      (unionStep pilesW (imgW1, imgW3)).Perm
        ((pilesW.getD 0 default).merge (pilesW.getD 1 default) :: rest)) :=
  C5_mergeBranch pilesW imgW1 imgW3 0 1 (by decide) (by decide) (by decide)

theorem charVal_digit {d : Nat} (h : d < 10) : charVal (Char.ofNat (48 + d)) = d := by
  interval_cases d <;> rfl

theorem natRepr_strVal (n : Nat) : strVal (natRepr n) = n := by
  induction n using Nat.strong_induction_on with
  | _ n ih =>
    rw [natRepr]
    by_cases h : n < 10
    · rw [dif_pos h]
      show 10 * 0 + charVal (Char.ofNat (48 + n)) = n
      rw [charVal_digit h]
      omega
    · rw [dif_neg h]
      unfold strVal
      rw [List.foldl_append]
      show 10 * strVal (natRepr (n / 10)) + charVal (Char.ofNat (48 + n % 10)) = n
      rw [ih (n / 10) (Nat.div_lt_self (by omega) (by omega)),
        charVal_digit (Nat.mod_lt _ (by omega))]
      omega

theorem natRepr_injective {m n : Nat} (h : natRepr m = natRepr n) : m = n := by
  rw [← natRepr_strVal m, ← natRepr_strVal n, h]

theorem natRepr_chars (n : Nat) : ∀ c ∈ natRepr n, ∃ d, d < 10 ∧ c = Char.ofNat (48 + d) := by
  induction n using Nat.strong_induction_on with
  | _ n ih =>
    rw [natRepr]
    by_cases h : n < 10
    · rw [dif_pos h]
      intro c hc
      rcases List.mem_singleton.mp hc with rfl
      exact ⟨n, h, rfl⟩
    · rw [dif_neg h]
      intro c hc
      rcases List.mem_append.mp hc with hc | hc
      · exact ih (n / 10) (Nat.div_lt_self (by omega) (by omega)) c hc
      · rcases List.mem_singleton.mp hc with rfl
        exact ⟨n % 10, Nat.mod_lt _ (by omega), rfl⟩

theorem natRepr_ne_nil (n : Nat) : natRepr n ≠ [] := by
  rw [natRepr]
  by_cases h : n < 10
  · rw [dif_pos h]
    exact List.cons_ne_nil _ _
  · rw [dif_neg h]
    intro hcontra
    rcases List.append_eq_nil.mp hcontra with ⟨_, h2⟩
    exact List.cons_ne_nil _ _ h2

theorem strVal_replicate_zero (k : Nat) (s : List Char) :
    strVal (List.replicate k (Char.ofNat 48) ++ s) = strVal s := by
  induction k with
  | zero => rfl
  | succ k ihk =>
    show strVal (Char.ofNat 48 :: (List.replicate k (Char.ofNat 48) ++ s)) = strVal s
    unfold strVal at ihk ⊢
    rw [List.foldl_cons]
    have : (10 * 0 + charVal (Char.ofNat 48)) = 0 := by decide
    rw [this]
    exact ihk

theorem pad4_strVal (n : Nat) : strVal (pad4 n) = n := by
  unfold pad4
  rw [strVal_replicate_zero, natRepr_strVal]

theorem pad4_injective {m n : Nat} (h : pad4 m = pad4 n) : m = n := by
  rw [← pad4_strVal m, ← pad4_strVal n, h]

theorem pad4_chars (n : Nat) : ∀ c ∈ pad4 n, ∃ d, d < 10 ∧ c = Char.ofNat (48 + d) := by
  intro c hc
  rcases List.mem_append.mp hc with hc | hc
  · rcases List.eq_of_mem_replicate hc with rfl
    exact ⟨0, by omega, rfl⟩
  · exact natRepr_chars n c hc

theorem digit_ne_45 : ∀ d, d < 10 → Char.ofNat (48 + d) ≠ Char.ofNat 45 := by decide

theorem digit_ne_95 : ∀ d, d < 10 → Char.ofNat (48 + d) ≠ Char.ofNat 95 := by decide

theorem char45_ne_95 : Char.ofNat 45 ≠ Char.ofNat 95 := by decide

theorem natRepr_head_digit {n : Nat} {c : Char} {t : List Char}
    (h : natRepr n = c :: t) : ∃ d, d < 10 ∧ c = Char.ofNat (48 + d) :=
  natRepr_chars n c (h ▸ List.mem_cons_self c t)

theorem intRepr_injective {a b : Int} (h : intRepr a = intRepr b) : a = b := by
  unfold intRepr at h
  by_cases ha : a < 0 <;> by_cases hb : b < 0
  · rw [if_pos ha, if_pos hb] at h
    rcases List.cons_eq_cons.mp h with ⟨_, htail⟩
    have h2 := natRepr_injective htail
    omega
  · rw [if_pos ha, if_neg hb] at h
    rcases hr : natRepr b.toNat with _ | ⟨c, t⟩
    · exact absurd hr (natRepr_ne_nil _)
    · rw [hr] at h
      rcases natRepr_head_digit hr with ⟨d, hd, rfl⟩
      exact absurd (List.head_eq_of_cons_eq h).symm (digit_ne_45 d hd)
  · rw [if_neg ha, if_pos hb] at h
    rcases hr : natRepr a.toNat with _ | ⟨c, t⟩
    · exact absurd hr (natRepr_ne_nil _)
    · rw [hr] at h
      rcases natRepr_head_digit hr with ⟨d, hd, rfl⟩
      exact absurd (List.head_eq_of_cons_eq h) (digit_ne_45 d hd)
  · rw [if_neg ha, if_neg hb] at h
    have h2 := natRepr_injective h
    omega

theorem intRepr_no_95 (a : Int) : Char.ofNat 95 ∉ intRepr a := by
  unfold intRepr
  by_cases ha : a < 0
  · rw [if_pos ha]
    intro hmem
    rcases List.mem_cons.mp hmem with heq | hmem
    · exact char45_ne_95 heq.symm
    · rcases natRepr_chars _ _ hmem with ⟨d, hd, hc⟩
      exact digit_ne_95 d hd hc.symm
  · rw [if_neg ha]
    intro hmem
    rcases natRepr_chars _ _ hmem with ⟨d, hd, hc⟩
    exact digit_ne_95 d hd hc.symm

/-- Splitting a concatenation at a separator character that occurs in
neither left part. -/
theorem append_cons_inj {α : Type} {c : α} :
    ∀ {a a2 b b2 : List α}, c ∉ a → c ∉ a2 → a ++ c :: b = a2 ++ c :: b2 →
      a = a2 ∧ b = b2 := by
  intro a
  induction a with
  | nil =>
    intro a2 b b2 _ ha2 h
    cases a2 with
    | nil =>
      rcases List.cons_eq_cons.mp h with ⟨_, h2⟩
      exact ⟨rfl, h2⟩
    | cons y s =>
      rcases List.cons_eq_cons.mp h with ⟨h1, _⟩
      exact absurd (h1 ▸ List.mem_cons_self y s) ha2
  | cons x t ih =>
    intro a2 b b2 ha ha2 h
    cases a2 with
    | nil =>
      rcases List.cons_eq_cons.mp h with ⟨h1, _⟩
      exact absurd (h1 ▸ List.mem_cons_self x t) ha
    | cons y s =>
      rcases List.cons_eq_cons.mp h with ⟨h1, h2⟩
      have hat : c ∉ t := fun hmem => ha (List.mem_cons_of_mem _ hmem)
      have has : c ∉ s := fun hmem => ha2 (List.mem_cons_of_mem _ hmem)
      rcases ih hat has h2 with ⟨h3, h4⟩
      exact ⟨by rw [h1, h3], h4⟩

theorem dirName_inj {d1 d2 : Int} {n1 n2 : Nat}
    (h : dirName d1 n1 = dirName d2 n2) : d1 = d2 ∧ n1 = n2 := by
  rcases append_cons_inj (intRepr_no_95 d1) (intRepr_no_95 d2) h with ⟨h1, h2⟩
  exact ⟨intRepr_injective h1, pad4_injective h2⟩

theorem assocGet_set_self (m : List (Int × Nat)) (d : Int) (v : Nat) :
    assocGet (assocSet m d v) d = some v := by
  induction m with
  | nil => simp [assocSet, assocGet]
  | cons kv t ih =>
    rcases kv with ⟨k, w⟩
    by_cases hk : k = d
    · simp [assocSet, assocGet, hk]
    · simp only [assocSet, assocGet, if_neg hk]
      exact ih

theorem assocGet_set_ne (m : List (Int × Nat)) {d e : Int} (v : Nat) (hne : e ≠ d) :
    assocGet (assocSet m d v) e = assocGet m e := by
  have hde : ¬ d = e := fun h => hne h.symm
  induction m with
  | nil =>
    show (if d = e then some v else assocGet [] e) = none
    rw [if_neg hde]
    rfl
  | cons kv t ih =>
    rcases kv with ⟨k, w⟩
    by_cases hk : k = d
    · simp only [assocSet, if_pos hk, assocGet]
      subst hk
      rw [if_neg hde, if_neg hde]
    · simp only [assocSet, if_neg hk, assocGet]
      by_cases hke : k = e
      · rw [if_pos hke, if_pos hke]
      · rw [if_neg hke, if_neg hke]
        exact ih

theorem dateCount_append_single (processed : List Pile) (p : Pile) (e : Int) :
    dateCount (processed ++ [p]) e
      = dateCount processed e + (if p.date = e then 1 else 0) := by
  unfold dateCount
  rw [List.countP_append]
  by_cases hpe : p.date = e
  · simp [List.countP_cons, hpe]
  · simp [List.countP_cons, hpe]

theorem bumpEntry_spec {m : List (Int × Nat)} {processed : List Pile}
    (hm : CountInv m processed) (p : Pile) :
    (bumpEntry m p.date).1 = dateCount processed p.date ∧
    CountInv (bumpEntry m p.date).2 (processed ++ [p]) := by
  have hd := hm p.date
  by_cases hc : 0 < dateCount processed p.date
  · rw [if_pos hc] at hd
    have hbump : bumpEntry m p.date = (dateCount processed p.date,
        assocSet m p.date (dateCount processed p.date)) := by
      unfold bumpEntry
      rw [hd]
      show (dateCount processed p.date - 1 + 1,
        assocSet m p.date (dateCount processed p.date - 1 + 1)) = _
      have heq : dateCount processed p.date - 1 + 1 = dateCount processed p.date := by
        omega
      rw [heq]
    rw [hbump]
    refine ⟨rfl, ?_⟩
    intro e
    rw [dateCount_append_single]
    by_cases hpe : p.date = e
    · subst hpe
      rw [if_pos rfl, assocGet_set_self]
      simp
    · rw [if_neg hpe, assocGet_set_ne _ _ (fun h => hpe h.symm), hm e]
      simp [hpe]
  · rw [if_neg hc] at hd
    have hbump : bumpEntry m p.date = (0, assocSet m p.date 0) := by
      unfold bumpEntry
      rw [hd]
    have hc0 : dateCount processed p.date = 0 := by omega
    rw [hbump]
    refine ⟨hc0.symm, ?_⟩
    intro e
    rw [dateCount_append_single]
    by_cases hpe : p.date = e
    · subst hpe
      rw [if_pos rfl, assocGet_set_self]
      simp [hc0]
    · rw [if_neg hpe, assocGet_set_ne _ _ (fun h => hpe h.symm), hm e]
      simp [hpe]

theorem pileNames_go : ∀ (todo : List Pile) (m : List (Int × Nat))
    (acc : List (List Char)) (processed : List Pile), CountInv m processed →
    (todo.foldl
      (fun st pile =>
        let nm := bumpEntry st.1 pile.date
        (nm.2, st.2 ++ [dirName pile.date nm.1]))
      (m, acc)).2 = acc ++ namesSpec processed todo := by
  intro todo
  induction todo with
  | nil =>
    intro m acc processed _
    simp [namesSpec]
  | cons p rest ih =>
    intro m acc processed hm
    rcases bumpEntry_spec hm p with ⟨h1, h2⟩
    rw [List.foldl_cons]
    show (rest.foldl _ ((bumpEntry m p.date).2,
      acc ++ [dirName p.date (bumpEntry m p.date).1])).2 = _
    rw [ih _ _ _ h2, h1]
    simp [namesSpec]

theorem countInv_nil : CountInv [] [] := by
  intro e
  simp [assocGet, dateCount]

theorem pileNames_eq_namesSpec (piles : List Pile) :
    pileNames piles = namesSpec [] piles := by
  unfold pileNames
  rw [pileNames_go piles [] [] [] countInv_nil]
  rfl

theorem namesSpec_length : ∀ (todo processed : List Pile),
    (namesSpec processed todo).length = todo.length := by
  intro todo
  induction todo with
  | nil => intro processed; rfl
  | cons p rest ih =>
    intro processed
    show (namesSpec processed (p :: rest)).length = rest.length + 1
    unfold namesSpec
    rw [List.length_cons, ih]

theorem namesSpec_getD : ∀ (todo : List Pile) (n : Nat) (processed : List Pile),
    n < todo.length →
    (namesSpec processed todo).getD n []
      = dirName (todo.getD n default).date
          (dateCount (processed ++ todo.take n) (todo.getD n default).date) := by
  intro todo
  induction todo with
  | nil =>
    intro n processed h
    exact absurd h (by simp)
  | cons p rest ih =>
    intro n processed h
    cases n with
    | zero =>
      show dirName p.date (dateCount processed p.date) = _
      simp [List.take]
    | succ n =>
      show (namesSpec (processed ++ [p]) rest).getD n [] = _
      rw [ih n (processed ++ [p]) (by simpa using Nat.lt_of_succ_lt_succ h)]
      simp [List.take_cons, List.append_assoc]

theorem take_sublist_take {α : Type} (l : List α) {n k : Nat} (h : n ≤ k) :
    (l.take n).Sublist (l.take k) := by
  have heq : l.take n = (l.take k).take n := by
    rw [List.take_take, min_eq_left h]
  rw [heq]
  exact List.take_sublist _ _

theorem take_succ_getD {α : Type} [Inhabited α] {l : List α} {n : Nat} (h : n < l.length) :
    l.take (n + 1) = l.take n ++ [l.getD n default] := by
  rw [List.take_succ, List.getElem?_eq_getElem h, getD_eq_getElem h default]
  rfl

/-- C6: the Materializer names pile directories date-underscore-counter,
where the counter starts at 0 per distinct date value and increments on
every further pile of an already seen date; names are produced in pile
order, two piles of one date get suffixes 0000 and 0001, and all names of a
run are pairwise distinct. -/
theorem C6_naming (piles : List Pile) :
    (pileNames piles).length = piles.length ∧
    (∀ n, n < piles.length →
      (pileNames piles).getD n []
        = dirName (piles.getD n default).date
            (dateCount (piles.take n) (piles.getD n default).date)) ∧
    (pileNames piles).Nodup ∧
    (∀ (p q : Pile), p.date = q.date →
      pileNames [p, q] = [dirName p.date 0, dirName p.date 1]) := by
  have hlen : (pileNames piles).length = piles.length := by
    rw [pileNames_eq_namesSpec]
    exact namesSpec_length piles []
  have hgetD : ∀ n, n < piles.length →
      (pileNames piles).getD n []
        = dirName (piles.getD n default).date
            (dateCount (piles.take n) (piles.getD n default).date) := by
    intro n hn
    rw [pileNames_eq_namesSpec, namesSpec_getD piles n [] hn, List.nil_append]
  refine ⟨hlen, hgetD, ?_, ?_⟩
  · show List.Pairwise (· ≠ ·) (pileNames piles)
    refine List.pairwise_iff_getElem.mpr ?_
    intro a b ha hb hab
    rw [hlen] at ha hb
    rw [← getD_eq_getElem (by rw [hlen]; exact ha) ([] : List Char),
      ← getD_eq_getElem (by rw [hlen]; exact hb) ([] : List Char),
      hgetD a ha, hgetD b hb]
    intro heq
    rcases dirName_inj heq with ⟨hdate, hcount⟩
    have hle : dateCount (piles.take (a + 1)) (piles.getD b default).date
        ≤ dateCount (piles.take b) (piles.getD b default).date :=
      List.Sublist.countP_le _ (take_sublist_take piles hab)
    have hstep : dateCount (piles.take (a + 1)) (piles.getD b default).date
        = dateCount (piles.take a) (piles.getD b default).date + 1 := by
      rw [take_succ_getD ha, dateCount_append_single, if_pos hdate]
    rw [← hdate] at hcount hle hstep
    omega
  · intro p q hpq
    rw [pileNames_eq_namesSpec]
    show dirName p.date (dateCount [] p.date)
        :: dirName q.date (dateCount ([] ++ [p]) q.date) :: [] = _
    have h0 : dateCount [] p.date = 0 := rfl
    have h1 : dateCount ([] ++ [p]) q.date = 1 := by
      unfold dateCount
      rw [List.nil_append]
      simp [List.countP_cons, hpq]
    rw [h0, h1, ← hpq]

/-- Witness for C6 at two concrete piles sharing a date. -/
theorem C6_naming_witness :
    (1 < ([Pile.new imgW1, Pile.new imgW2] : List Pile).length) ∧
    ((pileNames [Pile.new imgW1, Pile.new imgW2]).getD 1 []
      = dirName (([Pile.new imgW1, Pile.new imgW2] : List Pile).getD 1 default).date
          (dateCount (([Pile.new imgW1, Pile.new imgW2] : List Pile).take 1)
            (([Pile.new imgW1, Pile.new imgW2] : List Pile).getD 1 default).date)) ∧
    (Pile.new imgW1).date = (Pile.new imgW2).date ∧
    pileNames [Pile.new imgW1, Pile.new imgW2]
      = [dirName (Pile.new imgW1).date 0, dirName (Pile.new imgW1).date 1] :=
  ⟨by decide, (C6_naming [Pile.new imgW1, Pile.new imgW2]).2.1 1 (by decide), by decide,
    (C6_naming [Pile.new imgW1, Pile.new imgW2]).2.2.2 (Pile.new imgW1) (Pile.new imgW2)
      (by decide)⟩

/-- C7 evidence: when every file fails to load the engine yields zero piles,
and Stats::from_piles then evaluates sorted_piles[0] on an empty vector — an
index-out-of-bounds panic (none), so the run aborts before presenting any
statistics, contrary to the documented always-present behaviour. -/
theorem C7_statsPanicOnEmpty :
    formPiles (enginePairs []) = [] ∧
    Stats.from_piles (formPiles (enginePairs [])) 0 = none :=
  ⟨rfl, rfl⟩

/-- C8 counterexample: on a zero-capacity cache, get_or_insert hits the
.expect("zero sized cache") — the call panics instead of returning. -/
theorem C8_zeroCapPanics :
    (LruCache.new Nat 0).get_or_insert 0 factW = none := rfl

/-- C8 amended: get_or_insert never panics on a cache of positive capacity;
the zero-capacity misuse is exactly the case in which it panics (with the
message "zero sized cache"). -/
theorem C8_noPanicPosCap {V : Type} (c : LruCache V) (k : Nat) (f : Unit → V)
    (hcap : 0 < c.cache.cap) :
    ∃ out, c.get_or_insert k f = some out := by
  unfold LruCache.get_or_insert ExtLruCache.get_or_insert
  rcases h : extLookup c.cache.entries k with _ | v
  · rw [if_neg (by omega)]
    exact ⟨_, rfl⟩
  · exact ⟨_, rfl⟩

/-- Witness for the amended C8 on a capacity-one cache. -/
theorem C8_noPanicPosCap_witness :
    0 < (LruCache.new Nat 1).cache.cap ∧
    ∃ out, (LruCache.new Nat 1).get_or_insert 5 factW = some out :=
  ⟨by decide, C8_noPanicPosCap (LruCache.new Nat 1) 5 factW (by decide)⟩

/-- C10: on a positive-capacity cache, get_or_insert with an absent key
(for instance one whose entry was evicted since push returned it) does not
fail and does not mint a new key: it runs the factory exactly once, inserts
the produced value back under the same key and returns it, leaving
current_key untouched, so eviction is unobservable through get_or_insert;
for a resident key the stored value is returned and the factory is not
invoked. -/
theorem C10_getOrInsertContract (V : Type) (c : LruCache V) (k : Nat) (f : Unit → V)
    (hcap : 0 < c.cache.cap) :
    (extLookup c.cache.entries k = none →
      ∃ c2, c.get_or_insert k f = some (f (), c2, true) ∧
        extLookup c2.cache.entries k = some (f ()) ∧
        c2.current_key = c.current_key) ∧
    (∀ v, extLookup c.cache.entries k = some v →
      ∃ c2, c.get_or_insert k f = some (v, c2, false) ∧
        extLookup c2.cache.entries k = some v ∧
        c2.current_key = c.current_key) := by
  constructor
  · intro hmiss
    refine ⟨⟨⟨c.cache.cap, (k, f ()) ::
        (if c.cache.entries.length = c.cache.cap then c.cache.entries.dropLast
          else c.cache.entries)⟩, c.current_key⟩, ?_, ?_, rfl⟩
    · unfold LruCache.get_or_insert ExtLruCache.get_or_insert
      rw [hmiss]
      rw [if_neg (by omega)]
    · show (if k = k then some (f ()) else _) = some (f ())
      rw [if_pos rfl]
  · intro v hhit
    refine ⟨⟨⟨c.cache.cap, (k, v) :: extRemove c.cache.entries k⟩, c.current_key⟩,
      ?_, ?_, rfl⟩
    · unfold LruCache.get_or_insert ExtLruCache.get_or_insert
      rw [hhit]
    · show (if k = k then some v else _) = some v
      rw [if_pos rfl]

/-- Witness for C10: the evicted key 0 is absent, and get_or_insert
re-creates it via the factory without minting a new key. -/
theorem C10_getOrInsertContract_witness :
    extLookup lruW.cache.entries 0 = none ∧
    ∃ c2, lruW.get_or_insert 0 factW = some (factW (), c2, true) ∧
      extLookup c2.cache.entries 0 = some (factW ()) ∧
      c2.current_key = lruW.current_key :=
  ⟨by decide, (C10_getOrInsertContract Nat lruW 0 factW (by decide)).1 (by decide)⟩

theorem linkImages_error_shape {fileName : Nat → Option Nat}
    {hardLink : Nat → List Char → Option Nat} (hfn : ∀ p, (fileName p).isSome) :
    ∀ (imgs : List Image) (dir : List Char) (err : CreatePilesError),
      linkImages fileName hardLink dir imgs = Except.error err →
      ∃ e, err = CreatePilesError.linkFailed e := by
  intro imgs
  induction imgs with
  | nil =>
    intro dir err h
    cases h
  | cons img rest ih =>
    intro dir err h
    rcases hfname : fileName img.path with _ | v
    · have := hfn img.path
      rw [hfname] at this
      cases this
    · rw [linkImages, hfname] at h
      rcases hhl : hardLink img.path dir with _ | e
      · rw [hhl] at h
        exact ih dir err h
      · rw [hhl] at h
        cases h
        exact ⟨e, rfl⟩

theorem linkImages_ok_links {fileName : Nat → Option Nat}
    {hardLink : Nat → List Char → Option Nat} :
    ∀ (imgs : List Image) (dir : List Char),
      linkImages fileName hardLink dir imgs = Except.ok () →
      ∀ img ∈ imgs, (fileName img.path).isSome → hardLink img.path dir = none := by
  intro imgs
  induction imgs with
  | nil =>
    intro dir _ img hmem
    cases hmem
  | cons img0 rest ih =>
    intro dir h img hmem hfname
    rcases hf0 : fileName img0.path with _ | v
    · rw [linkImages, hf0] at h
      cases h
    · rw [linkImages, hf0] at h
      rcases hhl : hardLink img0.path dir with _ | e
      · rw [hhl] at h
        rcases List.mem_cons.mp hmem with rfl | hmem
        · exact hhl
        · exact ih dir h img hmem hfname
      · rw [hhl] at h
        cases h

/-- C9 amended: whenever directory creation and file-name extraction succeed
but hard-linking one of the pictures fails, create_piles aborts with the
raw io error of the link syscall — an error that names no source path (the
path is named only by the invalid-file-name failure). -/
theorem C9_linkFailure (fileName : Nat → Option Nat) (createDir : List Char → Option Nat)
    (hardLink : Nat → List Char → Option Nat) (saveStats : Option Nat)
    (piles : List Pile)
    (hcd : ∀ d, createDir d = none)
    (hfn : ∀ p, (fileName p).isSome)
    (hfail : ∃ pile ∈ piles, ∃ img ∈ pile.pictures, ∀ d, (hardLink img.path d).isSome) :
    ∃ e, create_piles fileName createDir hardLink saveStats piles
        = Except.error (CreatePilesError.linkFailed e) ∧
      CreatePilesError.namedSourcePath (CreatePilesError.linkFailed e) = none := by
  unfold create_piles
  revert hfail
  generalize ([] : List (Int × Nat)) = counts
  induction piles generalizing counts with
  | nil =>
    rintro ⟨pile, hpile, _⟩
    cases hpile
  | cons pile rest ih =>
    rintro ⟨pl, hpl, img, himg, hprop⟩
    rw [createPilesGo, hcd]
    rcases hres : linkImages fileName hardLink
        (dirName pile.date (bumpEntry counts pile.date).1) pile.pictures with err | u
    · rcases linkImages_error_shape hfn _ _ _ hres with ⟨e, rfl⟩
      exact ⟨e, rfl, rfl⟩
    · rcases List.mem_cons.mp hpl with rfl | hpl
      · have hnone := linkImages_ok_links _ _ hres img himg (hfn img.path)
        have hsome := hprop (dirName pl.date (bumpEntry counts pl.date).1)
        rw [hnone] at hsome
        cases hsome
      · exact ih (bumpEntry counts pile.date).2 ⟨pl, hpl, img, himg, hprop⟩

/-- C9 counterexample: a run in which hard-linking fails returns the raw io
error, which names no source path — refuting the claim that the error names
the offending source path. -/
theorem C9_linkErrorNamesNoPath :
    create_piles fnW cdW hlFailW none [Pile.new imgW1]
      = Except.error (CreatePilesError.linkFailed 13) ∧
    CreatePilesError.namedSourcePath (CreatePilesError.linkFailed 13) = none :=
  ⟨rfl, rfl⟩

/-- Witness for the amended C9. -/
theorem C9_linkFailure_witness :
    ∃ e, create_piles fnW cdW hlFailW none [Pile.new imgW1]
        = Except.error (CreatePilesError.linkFailed e) ∧
      CreatePilesError.namedSourcePath (CreatePilesError.linkFailed e) = none :=
  C9_linkFailure fnW cdW hlFailW none [Pile.new imgW1] (fun _ => rfl) (fun _ => rfl)
    ⟨Pile.new imgW1, List.mem_cons_self _ _, imgW1, List.mem_cons_self _ _, fun _ => rfl⟩

end Samepic
